import Mathlib

/-!
# Verification of `scripts/migrate-frontmatter.py`

A shallow embedding of the frontmatter-migration script of the
`claude-skills` repository.  Python strings are modelled as `List Char`
(`Str`), Python dicts of parsed frontmatter as insertion-ordered
association lists (`YDict`), and each function of the script as a Lean
function translated line by line from the source.  The theorems at the
end settle the specification claims about header parsing, header
rebuilding, related-skills extraction, the textual splice, and the two
migration passes.
-/

set_option maxHeartbeats 1000000

namespace Migrate

/-- Python strings, modelled as lists of characters. -/
abbrev Str := List Char

/-- Coerce a Lean string literal into the `Str` model. -/
def lchars (s : String) : Str := s.data

/-- The header delimiter substring `---` used by `content.split("---", 2)`. -/
def dashes : Str := lchars "---"

/-- Whitespace characters stripped by Python `str.strip()` (the ASCII ones). -/
def isWs (c : Char) : Bool :=
  c = ' ' || c = '\t' || c = '\n' || c = '\r' || c = '\x0b' || c = '\x0c'

/-- Python `str.lstrip()`. -/
def pyLstrip (l : Str) : Str := l.dropWhile isWs

/-- Python `str.rstrip()`. -/
def pyRstrip (l : Str) : Str := (l.reverse.dropWhile isWs).reverse

/-- Python `str.strip()`. -/
def pyStrip (l : Str) : Str := pyLstrip (pyRstrip l)

/-- Python `line.lstrip("- ")`: drop leading `-` and space characters. -/
def pyLstripDashSpace (l : Str) : Str := l.dropWhile (fun c => c = '-' || c = ' ')

/-- Split at the first occurrence of `sep` (a nonempty pattern): returns the
part before the occurrence and the part after it, or `none` when `sep` does
not occur.  This models one step of Python `str.split(sep, maxsplit)`. -/
def splitOnce (sep : Str) : Str → Option (Str × Str)
  | [] => none
  | c :: cs =>
    if sep.isPrefixOf (c :: cs) then some ([], (c :: cs).drop sep.length)
    else match splitOnce sep cs with
      | some (a, b) => some (c :: a, b)
      | none => none

/-- Python `content.split("---", 2)` restricted to the successful case of
three parts, i.e. at least two occurrences of the separator. -/
def split3 (sep l : Str) : Option (Str × Str × Str) :=
  match splitOnce sep l with
  | none => none
  | some (a, r) =>
    match splitOnce sep r with
    | none => none
    | some (b, c) => some (a, b, c)

/-- Python `str.split(c)` on a single-character separator (no maxsplit). -/
def splitChar (sep : Char) : Str → List Str
  | [] => [[]]
  | c :: cs =>
    if c = sep then [] :: splitChar sep cs
    else match splitChar sep cs with
      | [] => [[c]]
      | p :: ps => (c :: p) :: ps

/-- Python `sep.join(parts)`. -/
def joinSep (sep : Str) : List Str → Str
  | [] => []
  | [p] => p
  | p :: ps => p ++ sep ++ joinSep sep ps

/-- Python `sub in s` (substring containment), as a Bool. -/
def containsSub (pat l : Str) : Bool :=
  match splitOnce pat l with
  | some _ => true
  | none => false

/-- Greedy count of non-overlapping occurrences of a nonempty pattern,
counted left to right exactly as Python `str.split` finds separators.
`fuel` bounds the recursion; it is instantiated with the string length. -/
def countOccF (pat : Str) : Nat → Str → Nat
  | 0, _ => 0
  | fuel + 1, l =>
    match splitOnce pat l with
    | none => 0
    | some (_, r) => countOccF pat fuel r + 1

/-- Number of non-overlapping occurrences of `pat` in `l`. -/
def countOcc (pat l : Str) : Nat := countOccF pat (l.length + 1) l

/-! ## Basic lemmas about the string operations -/

open List in
theorem isPrefixOfEq {l₁ l₂ : Str} : l₁.isPrefixOf l₂ = true ↔ l₁ <+: l₂ :=
  isPrefixOf_iff_prefix

open List in
theorem nilPre (l : Str) : [] <+: l :=
  nil_prefix

theorem splitOnce_eq_append {sep l a b : Str} (h : splitOnce sep l = some (a, b)) :
    l = a ++ sep ++ b := by
  induction l generalizing a b with
  | nil => simp [splitOnce] at h
  | cons c cs ih =>
    rw [splitOnce] at h
    by_cases hp : sep.isPrefixOf (c :: cs)
    · rw [if_pos hp] at h
      obtain ⟨t, ht⟩ := isPrefixOfEq.mp hp
      obtain ⟨rfl, rfl⟩ : a = [] ∧ b = (c :: cs).drop sep.length := by
        simpa using h.symm
      rw [← ht, List.drop_left]
      simp [← ht]
    · rw [if_neg hp] at h
      cases heq : splitOnce sep cs with
      | none => rw [heq] at h; simp at h
      | some p =>
        obtain ⟨a', b'⟩ := p
        rw [heq] at h
        obtain ⟨rfl, rfl⟩ : a = c :: a' ∧ b = b' := by simpa using h.symm
        simp [ih heq]

theorem splitOnce_none_iff {sep l : Str} (hsep : sep ≠ []) :
    splitOnce sep l = none ↔ ¬ sep <:+: l := by
  induction l with
  | nil =>
    simp only [splitOnce, List.infix_nil]
    simpa using hsep
  | cons c cs ih =>
    rw [splitOnce]
    by_cases hp : sep.isPrefixOf (c :: cs)
    · rw [if_pos hp]
      have : sep <:+: c :: cs := (isPrefixOfEq.mp hp).isInfix
      simp [this]
    · rw [if_neg hp]
      have hnp : ¬ sep <+: c :: cs := fun h => hp (isPrefixOfEq.mpr h)
      cases heq : splitOnce sep cs with
      | none =>
        simp only [List.infix_cons_iff]
        have := ih.mp heq
        simp [hnp, this]
      | some p =>
        simp only [List.infix_cons_iff]
        have : sep <:+: cs := by
          by_contra hc
          rw [← ih] at hc
          rw [heq] at hc
          simp at hc
        simp [this]

theorem splitOnce_not_infix_left {sep l a b : Str} (hsep : sep ≠ [])
    (h : splitOnce sep l = some (a, b)) : ¬ sep <:+: a := by
  induction l generalizing a b with
  | nil => simp [splitOnce] at h
  | cons c cs ih =>
    rw [splitOnce] at h
    by_cases hp : sep.isPrefixOf (c :: cs)
    · rw [if_pos hp] at h
      obtain ⟨rfl, -⟩ : a = [] ∧ b = (c :: cs).drop sep.length := by
        simpa using h.symm
      simpa [List.infix_nil] using hsep
    · rw [if_neg hp] at h
      cases heq : splitOnce sep cs with
      | none => rw [heq] at h; simp at h
      | some p =>
        obtain ⟨a', b'⟩ := p
        rw [heq] at h
        obtain ⟨rfl, rfl⟩ : a = c :: a' ∧ b = b' := by simpa using h.symm
        intro hinf
        rcases List.infix_cons_iff.mp hinf with hpre | hin
        · refine hp (isPrefixOfEq.mpr (hpre.trans ?_))
          have hdec := splitOnce_eq_append heq
          exact ⟨sep ++ b, by simp [hdec]⟩
        · exact ih heq hin

theorem splitOnce_of_pre {sep l : Str} (hl : l ≠ []) (h : sep.isPrefixOf l) :
    splitOnce sep l = some ([], l.drop sep.length) := by
  cases l with
  | nil => simp at hl
  | cons c cs => rw [splitOnce, if_pos h]

/-! ## Absence of the `---` delimiter inside a string -/

/-- `DF l` ("dash-free") states that the delimiter `---` does not occur in `l`. -/
def DF (l : Str) : Prop := ¬ dashes <:+: l

instance : DecidablePred DF := fun _ =>
  inferInstanceAs (Decidable ¬ _)

theorem DF_nil : DF [] := by decide

theorem DF_mono {x y : Str} (h : x <:+: y) (hy : DF y) : DF x :=
  fun hx => hy (hx.trans h)

theorem dashes_eq : dashes = ['-', '-', '-'] := rfl

theorem triple_infix_append {a b : Str} (h : dashes <:+: a ++ b) :
    dashes <:+: a ∨ dashes <:+: b ∨
      (a.getLast? = some '-' ∧ b.head? = some '-') := by
  induction a with
  | nil => exact Or.inr (Or.inl (by simpa using h))
  | cons c a' ih =>
    rw [List.cons_append] at h
    rcases List.infix_cons_iff.mp h with hpre | hin
    · obtain ⟨t, ht⟩ := hpre
      rw [dashes_eq] at ht
      simp only [List.cons_append, List.cons.injEq] at ht
      obtain ⟨rfl, ht⟩ := ht
      cases a' with
      | nil =>
        simp only [List.nil_append] at ht
        refine Or.inr (Or.inr ⟨rfl, ?_⟩)
        rw [← ht]; rfl
      | cons d a'' =>
        simp only [List.cons_append, List.cons.injEq] at ht
        obtain ⟨rfl, ht⟩ := ht
        cases a'' with
        | nil =>
          simp only [List.nil_append] at ht
          refine Or.inr (Or.inr ⟨rfl, ?_⟩)
          rw [← ht]; rfl
        | cons e a''' =>
          simp only [List.cons_append, List.cons.injEq] at ht
          obtain ⟨rfl, -⟩ := ht
          exact Or.inl ⟨[], a''', by simp [dashes_eq]⟩
    · rcases ih hin with h1 | h1 | ⟨h1, h2⟩
      · exact Or.inl (h1.trans (List.infix_cons (List.infix_refl a')))
      · exact Or.inr (Or.inl h1)
      · refine Or.inr (Or.inr ⟨?_, h2⟩)
        cases a' with
        | nil => simp at h1
        | cons d a'' => rw [List.getLast?_cons_cons]; exact h1

theorem DF_append {a b : Str} (ha : DF a) (hb : DF b)
    (h : a.getLast? ≠ some '-' ∨ b.head? ≠ some '-') : DF (a ++ b) := by
  intro hinf
  rcases triple_infix_append hinf with h1 | h1 | ⟨h1, h2⟩
  · exact ha h1
  · exact hb h1
  · rcases h with h | h
    · exact h h1
    · exact h h2

theorem DF_cons {c : Char} {v : Str} (hc : ¬ c = '-') (hv : DF v) :
    DF (c :: v) := by
  intro hinf
  have hinf' : dashes <:+: ([c] ++ v) := hinf
  rcases triple_infix_append hinf' with h1 | h1 | ⟨h1, h2⟩
  · exact absurd h1.length_le (by simp [dashes_eq])
  · exact hv h1
  · exact hc (by simpa using h1)

theorem joinSep_cons_cons (sep p q : Str) (ps : List Str) :
    joinSep sep (p :: q :: ps) = p ++ sep ++ joinSep sep (q :: ps) := rfl

theorem joinSep_DF {sep : Str} (hne : sep ≠ []) (hs : DF sep)
    (hh : sep.head? ≠ some '-') (hl : sep.getLast? ≠ some '-')
    {ps : List Str} (hp : ∀ p ∈ ps, DF p) : DF (joinSep sep ps) := by
  induction ps with
  | nil => exact DF_nil
  | cons p ps ih =>
    cases ps with
    | nil => exact hp p (by simp)
    | cons q ps' =>
      rw [joinSep_cons_cons, List.append_assoc]
      have hrest : DF (sep ++ joinSep sep (q :: ps')) := by
        refine DF_append hs (ih ?_) (Or.inl hl)
        intro x hx
        exact hp x (by simp [hx])
      refine DF_append (hp p (by simp)) hrest (Or.inr ?_)
      cases sep with
      | nil => exact absurd rfl hne
      | cons c cs => simpa using hh

theorem joinSep_append (sep : Str) {xs ys : List Str} (hx : xs ≠ []) (hy : ys ≠ []) :
    joinSep sep (xs ++ ys) = joinSep sep xs ++ sep ++ joinSep sep ys := by
  induction xs with
  | nil => exact absurd rfl hx
  | cons x xs ih =>
    cases xs with
    | nil =>
      cases ys with
      | nil => exact absurd rfl hy
      | cons y ys' => simp [joinSep_cons_cons, joinSep]
    | cons x' xs' =>
      have := ih (by simp)
      simp only [List.cons_append, joinSep_cons_cons] at *
      simp [this]

/-- If `a` is dash-free and does not end in a dash, the first occurrence of
`---` in `a ++ q` lies wholly inside `q`. -/
theorem splitOnce_prepend {a : Str} (q : Str) (ha : DF a)
    (hl : a.getLast? ≠ some '-') :
    splitOnce dashes (a ++ q) =
      (splitOnce dashes q).map (fun p => (a ++ p.1, p.2)) := by
  induction a with
  | nil =>
    cases heq : splitOnce dashes q with
    | none => simp [heq]
    | some p => simp [heq]
  | cons c a' ih =>
    rw [List.cons_append]
    by_cases hp : dashes.isPrefixOf (c :: (a' ++ q))
    · exfalso
      have hpre := isPrefixOfEq.mp hp
      rw [dashes_eq] at hpre
      obtain ⟨t, ht⟩ := hpre
      simp only [List.cons_append, List.cons.injEq] at ht
      obtain ⟨rfl, ht⟩ := ht
      cases a' with
      | nil => exact hl rfl
      | cons d a'' =>
        simp only [List.cons_append, List.cons.injEq] at ht
        obtain ⟨rfl, ht⟩ := ht
        cases a'' with
        | nil => exact hl rfl
        | cons e a''' =>
          simp only [List.cons_append, List.cons.injEq] at ht
          obtain ⟨rfl, -⟩ := ht
          exact ha ⟨[], a''', by simp [dashes_eq]⟩
    · have ha' : DF a' := DF_mono (List.infix_cons (List.infix_refl a')) ha
      have hl' : a'.getLast? ≠ some '-' := by
        cases a' with
        | nil => simp
        | cons d a'' => rw [List.getLast?_cons_cons] at hl; exact hl
      have step := ih ha' hl'
      rw [splitOnce, if_neg hp, step]
      cases heq : splitOnce dashes q with
      | none => simp
      | some p => simp

theorem getLast?_append_cons (a : Str) (c : Char) (b : Str) :
    (a ++ c :: b).getLast? = (c :: b).getLast? := by
  rw [List.getLast?_append]
  cases heq : (c :: b).getLast? with
  | none => exact absurd heq (by simp)
  | some x => rfl

/-! ## splitChar and its properties -/

theorem splitChar_ne_nil (sep : Char) (l : Str) : splitChar sep l ≠ [] := by
  cases l with
  | nil => simp [splitChar]
  | cons c cs =>
    rw [splitChar]
    by_cases h : c = sep
    · simp [h]
    · rw [if_neg h]
      cases heq : splitChar sep cs <;> simp

theorem joinSep_splitChar (sep : Char) (l : Str) :
    joinSep [sep] (splitChar sep l) = l := by
  induction l with
  | nil => rfl
  | cons c cs ih =>
    rw [splitChar]
    by_cases h : c = sep
    · subst h
      rw [if_pos rfl]
      cases heq : splitChar c cs with
      | nil => exact absurd heq (splitChar_ne_nil c cs)
      | cons p ps =>
        rw [joinSep_cons_cons]
        rw [heq] at ih
        simp [ih]
    · rw [if_neg h]
      cases heq : splitChar sep cs with
      | nil => exact absurd heq (splitChar_ne_nil sep cs)
      | cons p ps =>
        rw [heq] at ih
        cases ps with
        | nil =>
          simp only [joinSep] at ih ⊢
          simp [ih]
        | cons q ps' =>
          rw [joinSep_cons_cons] at ih ⊢
          simp only [List.cons_append]
          rw [← List.cons_append, ← List.cons_append]
          simpa using ih

theorem splitChar_head_pre {sep : Char} {l q : Str} {ps : List Str}
    (h : splitChar sep l = q :: ps) : q <+: l := by
  induction l generalizing q ps with
  | nil =>
    simp [splitChar] at h
    simp [h.1]
  | cons c cs ih =>
    rw [splitChar] at h
    by_cases hc : c = sep
    · rw [if_pos hc] at h
      obtain ⟨rfl, -⟩ : q = [] ∧ ps = splitChar sep cs := by
        constructor <;> [exact (List.cons.injEq _ _ _ _ ▸ h).1.symm;
          exact (List.cons.injEq _ _ _ _ ▸ h).2.symm]
      exact nilPre _
    · rw [if_neg hc] at h
      cases heq : splitChar sep cs with
      | nil => exact absurd heq (splitChar_ne_nil sep cs)
      | cons q' ps' =>
        rw [heq] at h
        obtain ⟨rfl, -⟩ : q = c :: q' ∧ ps = ps' := by
          constructor <;> [exact (List.cons.injEq _ _ _ _ ▸ h).1.symm;
            exact (List.cons.injEq _ _ _ _ ▸ h).2.symm]
        exact List.cons_prefix_cons.mpr ⟨rfl, ih heq⟩

theorem infix_of_mem_splitChar {sep : Char} {l : Str} {p : Str}
    (h : p ∈ splitChar sep l) : p <:+: l := by
  induction l generalizing p with
  | nil =>
    simp [splitChar] at h
    simp [h]
  | cons c cs ih =>
    rw [splitChar] at h
    by_cases hc : c = sep
    · rw [if_pos hc] at h
      rcases List.mem_cons.mp h with rfl | h'
      · exact ⟨[], c :: cs, by simp⟩
      · exact (ih h').trans (List.infix_cons (List.infix_refl cs))
    · rw [if_neg hc] at h
      cases heq : splitChar sep cs with
      | nil => exact absurd heq (splitChar_ne_nil sep cs)
      | cons q ps =>
        rw [heq] at h
        rcases List.mem_cons.mp h with rfl | h'
        · exact (List.cons_prefix_cons.mpr ⟨rfl, splitChar_head_pre heq⟩).isInfix
        · exact (ih (by rw [heq]; simp [h'])).trans
            (List.infix_cons (List.infix_refl cs))

/-! ## Parsed frontmatter values and dictionaries

`parse_frontmatter` returns a Python dict whose values, for the header
shapes this script reads, are scalar strings, lists of strings, or (in
structured mode) a one-level nested mapping such as the `metadata` group.
Python dicts are modelled as insertion-ordered association lists with
overwriting assignment. -/

inductive YVal where
  | s (v : Str)
  | l (items : List Str)
  | m (entries : List (Str × Str))
  deriving DecidableEq

abbrev YDict := List (Str × YVal)

/-- Python `d[k]` lookup (as an `Option`). -/
def ydFind : YDict → Str → Option YVal
  | [], _ => none
  | (k', v) :: d, k => if k' = k then some v else ydFind d k

/-- Python `k in d`. -/
def ydHasKey (d : YDict) (k : Str) : Bool := (ydFind d k).isSome

/-- Python `d[k] = v`: overwrite in place keeping the key's position, or
append a new key at the end. -/
def ydInsert : YDict → Str → YVal → YDict
  | [], k, v => [(k, v)]
  | (k', v') :: d, k, v =>
    if k' = k then (k, v) :: d else (k', v') :: ydInsert d k v

/-- Membership of a key in a one-level nested mapping (`k in metadata`). -/
def entriesHasKey (entries : List (Str × Str)) (k : Str) : Bool :=
  entries.any (fun p => p.1 = k)

theorem ydHasKey_insert (d : YDict) (k k' : Str) (v : YVal) (h : ydHasKey d k) :
    ydHasKey (ydInsert d k' v) k := by
  induction d with
  | nil => simp [ydHasKey, ydFind, ydInsert] at h
  | cons p d ih =>
    obtain ⟨k0, v0⟩ := p
    rw [ydInsert]
    by_cases he : k0 = k'
    · subst he
      rw [if_pos rfl]
      rw [ydHasKey, ydFind] at h ⊢
      by_cases hk : k0 = k
      · rw [if_pos hk]
        simp
      · rw [if_neg hk] at h ⊢
        exact h
    · rw [if_neg he]
      rw [ydHasKey, ydFind] at h ⊢
      by_cases hk : k0 = k
      · rw [if_pos hk]; simp
      · rw [if_neg hk] at h ⊢
        exact ih h

theorem ydHasKey_insert_self (d : YDict) (k : Str) (v : YVal) :
    ydHasKey (ydInsert d k v) k := by
  induction d with
  | nil => simp [ydHasKey, ydFind, ydInsert]
  | cons p d ih =>
    obtain ⟨k0, v0⟩ := p
    rw [ydInsert]
    by_cases he : k0 = k
    · rw [if_pos he]
      simp [ydHasKey, ydFind]
    · rw [if_neg he]
      rw [ydHasKey, ydFind, if_neg he]
      exact ih

/-! ## `parse_frontmatter`: the fallback line-oriented parser

Direct translation of the `else` branch of `parse_frontmatter`
(`HAS_PYYAML` false): a state of the accumulated dict plus the pending
`current_key`/`current_list` pair, folded over the lines of the header. -/

structure FBState where
  fm : YDict
  pend : Option (Str × List Str)

/-- `if current_key and current_list is not None: frontmatter[current_key] = current_list` -/
def fbFlush (st : FBState) : YDict :=
  match st.pend with
  | some (k, items) => if k ≠ [] then ydInsert st.fm k (.l items) else st.fm
  | none => st.fm

/-- One iteration of the fallback parser's line loop. -/
def fbStep (st : FBState) (line : Str) : FBState :=
  if (pyStrip line).isEmpty then st
  else if (lchars "  - ").isPrefixOf line || (lchars "    - ").isPrefixOf line then
    match st.pend with
    | some (k, items) =>
      if k ≠ [] then
        { st with pend := some (k, items ++ [pyStrip (pyLstripDashSpace (pyStrip line))]) }
      else st
    | none => st
  else if ':' ∈ line ∧ ¬ (lchars " ").isPrefixOf line then
    let fm1 := fbFlush st
    match splitOnce [':'] line with
    | some (k0, v0) =>
      let k := pyStrip k0
      let v := pyStrip v0
      if v = [] then { fm := fm1, pend := some (k, []) }
      else { fm := ydInsert fm1 k (.s v), pend := none }
    | none => st
  else st

/-- The fallback parser: fold the line loop over
`yaml_str.strip().split("\n")` and flush the final pending list. -/
def fbParse (yamlStr : Str) : YDict :=
  fbFlush ((splitChar '\n' (pyStrip yamlStr)).foldl fbStep ⟨[], none⟩)

/-! ## `parse_frontmatter`: the structured (PyYAML) strategy

Modelled from the spec: structured mode "delegates to a full
structured-data reader" (`yaml.safe_load`), a third-party library not in
`src/`.  The model implements the reader's documented behaviour on the
header shapes this document format emits and consumes — flat
`key: value` scalars, a bare `key:` followed by an indented `- item`
block, and a bare `key:` followed by an indented one-level mapping block
(the `metadata` group).  Plain scalars are kept verbatim (no type
coercion, quote processing or escape handling, which the spec does not
describe); unrecognized indented material is skipped. -/

def ymItems (block : List Str) : List Str :=
  block.filterMap (fun l =>
    let s := pyStrip l
    if (lchars "- ").isPrefixOf s then some (pyStrip (s.drop 2)) else none)

def ymEntries (block : List Str) : List (Str × Str) :=
  block.filterMap (fun l =>
    if (pyStrip l).isEmpty then none
    else match splitOnce [':'] l with
      | some (k0, v0) => some (pyStrip k0, pyStrip v0)
      | none => none)

def ymBlockVal (block : List Str) : YVal :=
  match block.find? (fun l => !(pyStrip l).isEmpty) with
  | none => .s []
  | some l0 =>
    if (lchars "- ").isPrefixOf (pyStrip l0) then .l (ymItems block)
    else .m (ymEntries block)

def isIndentedOrBlank (l : Str) : Bool :=
  (lchars " ").isPrefixOf l || (pyStrip l).isEmpty

/-- Fuelled recursion over the header lines (fuel is the line count). -/
def ymAuxF : Nat → List Str → YDict → YDict
  | 0, _, fm => fm
  | _ + 1, [], fm => fm
  | fuel + 1, line :: rest, fm =>
    if (pyStrip line).isEmpty then ymAuxF fuel rest fm
    else if (lchars " ").isPrefixOf line then ymAuxF fuel rest fm
    else match splitOnce [':'] line with
      | none => ymAuxF fuel rest fm
      | some (k0, v0) =>
        let k := pyStrip k0
        let v := pyStrip v0
        if v.isEmpty then
          let block := rest.takeWhile isIndentedOrBlank
          let rest' := rest.dropWhile isIndentedOrBlank
          ymAuxF fuel rest' (ydInsert fm k (ymBlockVal block))
        else ymAuxF fuel rest (ydInsert fm k (.s v))

/-- The structured parser on the header text. -/
def ymParse (yamlStr : Str) : YDict :=
  let lines := splitChar '\n' yamlStr
  ymAuxF (lines.length + 1) lines []

/-- `parse_frontmatter(content)`: returns `(None, content)` when the text
does not start with `---` or splits into fewer than three parts, else the
parsed mapping of `parts[1]` (by the strategy selected by `HAS_PYYAML`)
and `parts[2]` as body. -/
def parseFrontmatter (usePyyaml : Bool) (content : Str) : Option YDict × Str :=
  if ¬ dashes.isPrefixOf content then (none, content)
  else match split3 dashes content with
    | none => (none, content)
    | some (_, fmStr, body) =>
      (some (if usePyyaml then ymParse fmStr else fbParse fmStr), body)

/-! ## `SKILL_DOMAIN_MAP` and `build_new_frontmatter` -/

/-- The static skill-to-domain lookup table, copied entry by entry. -/
def SKILL_DOMAIN_MAP : List (Str × Str) :=
  [ (lchars "python-pro", lchars "language"),
    (lchars "typescript-pro", lchars "language"),
    (lchars "javascript-pro", lchars "language"),
    (lchars "golang-pro", lchars "language"),
    (lchars "rust-engineer", lchars "language"),
    (lchars "sql-pro", lchars "language"),
    (lchars "cpp-pro", lchars "language"),
    (lchars "swift-expert", lchars "language"),
    (lchars "kotlin-specialist", lchars "language"),
    (lchars "csharp-developer", lchars "language"),
    (lchars "php-pro", lchars "language"),
    (lchars "java-architect", lchars "language"),
    (lchars "nestjs-expert", lchars "backend"),
    (lchars "django-expert", lchars "backend"),
    (lchars "fastapi-expert", lchars "backend"),
    (lchars "spring-boot-engineer", lchars "backend"),
    (lchars "laravel-specialist", lchars "backend"),
    (lchars "rails-expert", lchars "backend"),
    (lchars "dotnet-core-expert", lchars "backend"),
    (lchars "react-expert", lchars "frontend"),
    (lchars "nextjs-developer", lchars "frontend"),
    (lchars "vue-expert", lchars "frontend"),
    (lchars "vue-expert-js", lchars "frontend"),
    (lchars "angular-architect", lchars "frontend"),
    (lchars "react-native-expert", lchars "frontend"),
    (lchars "flutter-expert", lchars "frontend"),
    (lchars "kubernetes-specialist", lchars "infrastructure"),
    (lchars "terraform-engineer", lchars "infrastructure"),
    (lchars "postgres-pro", lchars "infrastructure"),
    (lchars "cloud-architect", lchars "infrastructure"),
    (lchars "database-optimizer", lchars "infrastructure"),
    (lchars "graphql-architect", lchars "api-architecture"),
    (lchars "api-designer", lchars "api-architecture"),
    (lchars "websocket-engineer", lchars "api-architecture"),
    (lchars "microservices-architect", lchars "api-architecture"),
    (lchars "mcp-developer", lchars "api-architecture"),
    (lchars "architecture-designer", lchars "api-architecture"),
    (lchars "test-master", lchars "quality"),
    (lchars "playwright-expert", lchars "quality"),
    (lchars "code-reviewer", lchars "quality"),
    (lchars "code-documenter", lchars "quality"),
    (lchars "debugging-wizard", lchars "quality"),
    (lchars "devops-engineer", lchars "devops"),
    (lchars "monitoring-expert", lchars "devops"),
    (lchars "sre-engineer", lchars "devops"),
    (lchars "chaos-engineer", lchars "devops"),
    (lchars "cli-developer", lchars "devops"),
    (lchars "secure-code-guardian", lchars "security"),
    (lchars "security-reviewer", lchars "security"),
    (lchars "fullstack-guardian", lchars "security"),
    (lchars "pandas-pro", lchars "data-ml"),
    (lchars "spark-engineer", lchars "data-ml"),
    (lchars "ml-pipeline", lchars "data-ml"),
    (lchars "prompt-engineer", lchars "data-ml"),
    (lchars "rag-architect", lchars "data-ml"),
    (lchars "fine-tuning-expert", lchars "data-ml"),
    (lchars "salesforce-developer", lchars "platform"),
    (lchars "shopify-expert", lchars "platform"),
    (lchars "wordpress-pro", lchars "platform"),
    (lchars "atlassian-mcp", lchars "platform"),
    (lchars "legacy-modernizer", lchars "specialized"),
    (lchars "embedded-systems", lchars "specialized"),
    (lchars "game-developer", lchars "specialized"),
    (lchars "feature-forge", lchars "workflow"),
    (lchars "spec-miner", lchars "workflow") ]

/-- Python `m.get(k, default)` on the domain table. -/
def mapGetD (m : List (Str × Str)) (k dflt : Str) : Str :=
  match m.find? (fun p => p.1 = k) with
  | some p => p.2
  | none => dflt

/-- Python `repr` of a string, simplified to single quotes without escape
handling (the values this script handles contain no quotes or
backslashes, and no claim depends on those corners). -/
def pyReprStr (s : Str) : Str := '\'' :: s ++ ['\'']

/-- Python `str(value)` as used by the f-strings of
`build_new_frontmatter`: a string formats as itself, a list or dict by
its `repr`. -/
def pyStr : YVal → Str
  | .s v => v
  | .l items =>
    '[' :: joinSep (lchars ", ") (items.map pyReprStr) ++ [']']
  | .m entries =>
    '\x7b' :: joinSep (lchars ", ")
        (entries.map (fun p => pyReprStr p.1 ++ lchars ": " ++ pyReprStr p.2)) ++
      ['\x7d']

/-- The special characters of `any(c in desc for c in ":#\x7b\x7d[]|>&*!%@`")`. -/
def specialChars : Str := lchars ":#\x7b\x7d[]|>&*!%@`"

/-- Python `c in desc` where `desc` is the value `fm["description"]`:
character containment for a string, element membership for a list,
key membership for a dict. -/
def pyCharIn (c : Char) : YVal → Bool
  | .s d => d.contains c
  | .l items => items.contains [c]
  | .m entries => (entries.map (fun p => p.1)).contains [c]

/-- `any(c in desc for c in ":#\x7b\x7d[]|>&*!%@`")`. -/
def hasSpecial (v : YVal) : Bool := specialChars.any (fun c => pyCharIn c v)

/-- Python `fm[k]` as formatted into an f-string; `build_new_frontmatter`
is only reached after `migrate_skill` has checked the required keys, so
the lookup is total there; an absent key is modelled as the empty
string. -/
def ydGetStr (fm : YDict) (k : Str) : Str :=
  match ydFind fm k with
  | some v => pyStr v
  | none => []

/-- The `metadata.triggers` value: a list is flattened with `", ".join`,
anything else goes through `str()`; the `fm.get("triggers", [])` default
is the empty list, which joins to the empty string. -/
def triggersStr (fm : YDict) : Str :=
  match ydFind fm (lchars "triggers") with
  | some (.l items) => joinSep (lchars ", ") items
  | some v => pyStr v
  | none => joinSep (lchars ", ") []

/-- The `description` line with its conditional quoting. -/
def descLine (fm : YDict) : Str :=
  if hasSpecial ((ydFind fm (lchars "description")).getD (.s [])) then
    lchars "description: \"" ++ ydGetStr fm (lchars "description") ++ ['"']
  else
    lchars "description: " ++ ydGetStr fm (lchars "description")

/-- The `lines` list constructed by `build_new_frontmatter`, in order. -/
def buildLines (fm : YDict) (skillName : Str) : List Str :=
  [lchars "---",
   lchars "name: " ++ ydGetStr fm (lchars "name"),
   descLine fm,
   lchars "license: MIT"] ++
  (if ydHasKey fm (lchars "allowed-tools") then
    [lchars "allowed-tools: " ++ ydGetStr fm (lchars "allowed-tools")]
  else []) ++
  [lchars "metadata:",
   lchars "  author: https://github.com/Jeffallan",
   lchars "  version: \"1.0.0\"",
   lchars "  domain: " ++ mapGetD SKILL_DOMAIN_MAP skillName (lchars "unknown"),
   lchars "  triggers: " ++ triggersStr fm] ++
  (if ydHasKey fm (lchars "role") then
    [lchars "  role: " ++ ydGetStr fm (lchars "role")]
  else []) ++
  (if ydHasKey fm (lchars "scope") then
    [lchars "  scope: " ++ ydGetStr fm (lchars "scope")]
  else []) ++
  (if ydHasKey fm (lchars "output-format") then
    [lchars "  output-format: " ++ ydGetStr fm (lchars "output-format")]
  else []) ++
  [lchars "---"]

/-- `build_new_frontmatter(fm, skill_name)`: `"\n".join(lines)`. -/
def build_new_frontmatter (fm : YDict) (skillName : Str) : Str :=
  joinSep ['\n'] (buildLines fm skillName)

/-! ## `extract_related_skills`

Model of `re.search(r"## Related Skills\s*\n(.*?)(?=\n## |\Z)", body,
re.DOTALL)` followed by `re.findall(r"\*\*(.+?)\*\*", section)`:
the engine finds an occurrence of the literal, matches `\s*\n` greedily
(so the match ends at the last newline of the maximal whitespace run
following the literal, failing if the run has none), and the lazy
dot-all capture stops at the first `\n## ` or at the end of the text. -/

/-- The heading literal `## Related Skills`. -/
def relLit : Str := lchars "## Related Skills"

/-- Given the text after an occurrence of the literal: match `\s*\n`
greedily and return the captured section, or `none` if the whitespace
run that follows contains no newline. -/
def sectionAfter (text : Str) : Option Str :=
  let run := text.takeWhile isWs
  if '\n' ∈ run then
    let trailing := (run.reverse.takeWhile (fun c => ¬ c = '\n')).length
    let remainder := text.drop (run.length - trailing)
    some (match splitOnce (lchars "\n## ") remainder with
      | some (a, _) => a
      | none => remainder)
  else none

/-- Scan occurrence by occurrence of the literal (the literal has no
self-overlap, so this is the regex engine's left-to-right search). -/
def findSectionF : Nat → Str → Option Str
  | 0, _ => none
  | fuel + 1, body =>
    match splitOnce relLit body with
    | none => none
    | some (_, after) =>
      match sectionAfter after with
      | some sec => some sec
      | none => findSectionF fuel after

/-- `\*\*(.+?)\*\*` without DOTALL: after an opening `**`, the shortest
nonempty newline-free run followed by `**`. -/
def findClose : Str → Option (Str × Str)
  | [] => none
  | c :: rest =>
    if c = '\n' then none
    else if (lchars "**").isPrefixOf rest then some ([c], rest.drop 2)
    else match findClose rest with
      | some (t, r) => some (c :: t, r)
      | none => none

/-- `re.findall(r"\*\*(.+?)\*\*", section)`: on failure at an opening
`**` the engine resumes the search one character later, i.e. from the
second star. -/
def boldRunsF : Nat → Str → List Str
  | 0, _ => []
  | fuel + 1, s =>
    match splitOnce (lchars "**") s with
    | none => []
    | some (_, after) =>
      match findClose after with
      | some (t, rest) => t :: boldRunsF fuel rest
      | none => boldRunsF fuel ('*' :: after)

def boldRuns (s : Str) : List Str := boldRunsF (s.length + 1) s

/-- `name.lower().replace(" ", "-")`. -/
def toDirName (s : Str) : Str :=
  s.map (fun c => if c = ' ' then '-' else c.toLower)

/-- The filtered identifier list, in extraction order, no deduplication. -/
def extractRelatedIds (body : Str) (validDirs : List Str) : List Str :=
  match findSectionF (body.length + 1) body with
  | none => []
  | some sec => ((boldRuns sec).map toDirName).filter (fun d => d ∈ validDirs)

/-- `extract_related_skills(body, valid_dirs)`. -/
def extract_related_skills (body : Str) (validDirs : List Str) : Str :=
  joinSep (lchars ", ") (extractRelatedIds body validDirs)

/-! ## `add_related_skills_to_frontmatter` -/

/-- The spliced line `f"  related-skills: \x7brelated_skills\x7d"`. -/
def rsLine (relatedSkills : Str) : Str :=
  lchars "  related-skills: " ++ relatedSkills

/-- `line.strip().startswith("output-format:")`. -/
def isOFLine (l : Str) : Bool := (lchars "output-format:").isPrefixOf (pyStrip l)

/-- First pass of the splice loop: append each line, inserting the
related-skills line right after the first line whose strip starts with
`output-format:`; `none` when no such line exists. -/
def insAfterOutput (rs : Str) : List Str → Option (List Str)
  | [] => none
  | l :: ls =>
    if isOFLine l then
      some (l :: rsLine rs :: ls)
    else match insAfterOutput rs ls with
      | some ls' => some (l :: ls')
      | none => none

/-- `new_lines[i].startswith("  ") and ":" in new_lines[i]`. -/
def isMetaFieldLine (l : Str) : Bool :=
  (lchars "  ").isPrefixOf l && l.contains ':'

/-- Fallback of the splice: scan backward for the last metadata field
line and insert after it; `none` when no such line exists. -/
def insAfterLastMeta (rs : Str) : List Str → Option (List Str)
  | [] => none
  | l :: ls =>
    match insAfterLastMeta rs ls with
    | some ls' => some (l :: ls')
    | none =>
      if isMetaFieldLine l then some (l :: rsLine rs :: ls) else none

/-- `add_related_skills_to_frontmatter(content, related_skills)`. -/
def add_related_skills_to_frontmatter (content relatedSkills : Str) : Str :=
  match split3 dashes content with
  | none => content
  | some (_, fmStr, body) =>
    if containsSub (lchars "  related-skills:") fmStr then content
    else
      let lines := splitChar '\n' fmStr
      let newLines :=
        match insAfterOutput relatedSkills lines with
        | some ls => ls
        | none =>
          match insAfterLastMeta relatedSkills lines with
          | some ls => ls
          | none => lines
      dashes ++ joinSep ['\n'] newLines ++ dashes ++ body

/-! ## The two migration passes (pure content transformations)

`migrate_skill` / `migrate_related_skills` wrap the pure logic in file
I/O: read the file, compute, then either report a skip/failure (no
write) or write the new content.  The models below give the per-document
outcome and the resulting file content. -/

inductive OutcomeA where
  | migrated (newContent : Str)
  | skippedAlready
  | noFrontmatter
  | missingField (field : Str)
  deriving DecidableEq

/-- The `for field in ["name", "description", "triggers"]` check. -/
def firstMissingField (fm : YDict) : Option Str :=
  if ¬ ydHasKey fm (lchars "name") then some (lchars "name")
  else if ¬ ydHasKey fm (lchars "description") then some (lchars "description")
  else if ¬ ydHasKey fm (lchars "triggers") then some (lchars "triggers")
  else none

/-- `migrate_skill` on the file's content (Pass A). -/
def migrateSkill (usePyyaml : Bool) (skillName content : Str) : OutcomeA :=
  match parseFrontmatter usePyyaml content with
  | (none, _) => .noFrontmatter
  | (some fm, body) =>
    if ydHasKey fm (lchars "metadata") then .skippedAlready
    else match firstMissingField fm with
      | some f => .missingField f
      | none => .migrated (build_new_frontmatter fm skillName ++ body)

/-- The resulting file content of one Pass A step: `skill_md.write_text`
only happens on the migrated outcome. -/
def applyPassA (usePyyaml : Bool) (skillName content : Str) : Str :=
  match migrateSkill usePyyaml skillName content with
  | .migrated nc => nc
  | _ => content

/-- Pass A over a document collection (name, content) pairs. -/
def passA (usePyyaml : Bool) (docs : List (Str × Str)) : List (Str × Str) :=
  docs.map (fun d => (d.1, applyPassA usePyyaml d.1 d.2))

inductive OutcomeB where
  | added (newContent : Str)
  | skippedAlready
  | noFrontmatter
  deriving DecidableEq

/-- `migrate_related_skills` on the file's content (Pass B). -/
def migrateRelated (usePyyaml : Bool) (validDirs : List Str) (content : Str) :
    OutcomeB :=
  match parseFrontmatter usePyyaml content with
  | (none, _) => .noFrontmatter
  | (some fm, body) =>
    let metadata := (ydFind fm (lchars "metadata")).getD (.m [])
    if (match metadata with
        | .m entries => entriesHasKey entries (lchars "related-skills")
        | _ => false) then .skippedAlready
    else
      .added (add_related_skills_to_frontmatter content
        (extract_related_skills body validDirs))

/-- The resulting file content of one Pass B step. -/
def applyPassB (usePyyaml : Bool) (validDirs : List Str) (content : Str) : Str :=
  match migrateRelated usePyyaml validDirs content with
  | .added nc => nc
  | _ => content

/-! ## Helper lemmas for the claims -/

theorem containsSub_iff {pat l : Str} (hp : pat ≠ []) :
    containsSub pat l = true ↔ pat <:+: l := by
  rw [containsSub]
  cases heq : splitOnce pat l with
  | none =>
    have := (splitOnce_none_iff hp).mp heq
    simp [this]
  | some p =>
    simp only [true_iff]
    by_contra hc
    rw [← splitOnce_none_iff hp] at hc
    rw [heq] at hc
    simp at hc

theorem splitOnce_length {sep l a b : Str} (hp : sep ≠ [])
    (h : splitOnce sep l = some (a, b)) : b.length < l.length := by
  have hd := splitOnce_eq_append h
  rw [hd]
  simp only [List.length_append]
  have : 0 < sep.length := List.length_pos.mpr hp
  omega

theorem countOccF_succ (pat : Str) (fuel : Nat) (l : Str) :
    countOccF pat (fuel + 1) l =
      match splitOnce pat l with
      | none => 0
      | some (_, r) => countOccF pat fuel r + 1 := rfl

theorem countOccF_zero_iff {pat l : Str} {fuel : Nat} (hf : 0 < fuel) :
    (countOccF pat fuel l = 0 ↔ splitOnce pat l = none) := by
  obtain ⟨m, rfl⟩ : ∃ m, fuel = m + 1 := ⟨fuel - 1, by omega⟩
  rw [countOccF_succ]
  cases heq : splitOnce pat l <;> simp

/-- `split3` fails exactly when there are fewer than two occurrences. -/
theorem split3_none_iff {l : Str} :
    split3 dashes l = none ↔ countOcc dashes l < 2 := by
  rw [split3, countOcc]
  cases h1 : splitOnce dashes l with
  | none =>
    rw [countOccF_succ]
    simp [h1]
  | some p =>
    obtain ⟨a, r⟩ := p
    have hlen : r.length < l.length := splitOnce_length (by decide) h1
    rw [countOccF_succ]
    simp only [h1]
    obtain ⟨m, hm⟩ : ∃ m, l.length = m + 1 := ⟨l.length - 1, by omega⟩
    rw [hm]
    cases h2 : splitOnce dashes r with
    | none =>
      have h0 : countOccF dashes (m + 1) r = 0 :=
        (countOccF_zero_iff (by omega)).mpr h2
      simp [h2, h0]
    | some q =>
      obtain ⟨b, r2⟩ := q
      have hm1 : 0 < m := by
        have hr : 0 < r.length := by
          have := splitOnce_eq_append h2
          rw [this]
          simp only [List.length_append]
          have : 0 < dashes.length := by decide
          omega
        omega
      obtain ⟨k, hk⟩ : ∃ k, m = k + 1 := ⟨m - 1, by omega⟩
      rw [hk, countOccF_succ]
      simp [h2]

/-! ## Claim C8: when the parser reports "no header" -/

/-- A line consisting only of the marker `---` (the claim's reading of
"the delimiter per the document format"). -/
def isDelimLine (l : Str) : Bool := l = dashes

/-- Number of `---`-only lines in a text. -/
def delimLineCount (content : Str) : Nat :=
  ((splitChar '\n' content).filter isDelimLine).length

/-- Whether the text begins with a `---`-only line. -/
def startsWithDelimLine (content : Str) : Bool :=
  match splitChar '\n' content with
  | l :: _ => isDelimLine l
  | [] => false

/-- C8 (counterexample): the claim defines the delimiter as a line
containing only `---`; on the input `---x---y`, which neither begins
with such a line nor contains any, the claim predicts a "no header"
result, yet `parse_frontmatter` (either strategy) returns a header
(the empty mapping, with body `y`): the parser splits on the substring
`---`, not on delimiter lines. -/
theorem claim_C8_counterexample :
    (parseFrontmatter false (lchars "---x---y")).1.isSome = true ∧
    (parseFrontmatter true (lchars "---x---y")).1.isSome = true ∧
    startsWithDelimLine (lchars "---x---y") = false ∧
    delimLineCount (lchars "---x---y") = 0 := by
  refine ⟨?_, ?_, ?_, ?_⟩ <;> decide

/-- C8 (amended): `parse_frontmatter` returns the "no header" result
`(None, content)` exactly when the raw text does not begin with the
substring `---` or contains fewer than two non-overlapping occurrences
of the substring `---`; otherwise it returns a fields mapping and the
remaining body text. -/
theorem claim_C8_amended (u : Bool) (content : Str) :
    ((parseFrontmatter u content).1 = none ∧
        (parseFrontmatter u content).2 = content ↔
      ¬ dashes.isPrefixOf content = true ∨ countOcc dashes content < 2) ∧
    ((parseFrontmatter u content).1 ≠ none →
      ∃ fm body, parseFrontmatter u content = (some fm, body)) := by
  rw [parseFrontmatter]
  by_cases hpre : dashes.isPrefixOf content = true
  · rw [if_neg (by simpa using hpre)]
    cases h3 : split3 dashes content with
    | none =>
      have hcnt := split3_none_iff.mp h3
      constructor
      · simp [hcnt]
      · intro h
        simp at h
    | some t =>
      obtain ⟨p0, fmStr, body⟩ := t
      have hcnt : ¬ countOcc dashes content < 2 := by
        intro hc
        rw [← split3_none_iff, h3] at hc
        simp at hc
      constructor
      · simp [hpre, hcnt]
      · intro _
        exact ⟨(if u = true then ymParse fmStr else fbParse fmStr), body, rfl⟩
  · rw [if_pos (by simpa using hpre)]
    constructor
    · simp [hpre]
    · intro h
      simp at h

/-! ## Claim C7: missing required fields -/

/-- C7: when the parsed header has no `metadata` key and one of the
required fields is absent, Pass A reports `failed-missing-field` naming
the first missing field in the order name, description, triggers, and
the document content is not rewritten. -/
theorem claim_C7 (u : Bool) (sk content : Str) (fm : YDict) (body : Str)
    (hparse : parseFrontmatter u content = (some fm, body))
    (hmeta : ydHasKey fm (lchars "metadata") = false) :
    (ydHasKey fm (lchars "name") = false →
      migrateSkill u sk content = .missingField (lchars "name") ∧
      applyPassA u sk content = content) ∧
    (ydHasKey fm (lchars "name") = true →
      ydHasKey fm (lchars "description") = false →
      migrateSkill u sk content = .missingField (lchars "description") ∧
      applyPassA u sk content = content) ∧
    (ydHasKey fm (lchars "name") = true →
      ydHasKey fm (lchars "description") = true →
      ydHasKey fm (lchars "triggers") = false →
      migrateSkill u sk content = .missingField (lchars "triggers") ∧
      applyPassA u sk content = content) := by
  refine ⟨?_, ?_, ?_⟩
  · intro hn
    have hm : migrateSkill u sk content = .missingField (lchars "name") := by
      simp only [migrateSkill, hparse]
      rw [if_neg (by simp [hmeta])]
      rw [firstMissingField, if_pos (by simp [hn])]
    exact ⟨hm, by rw [applyPassA, hm]⟩
  · intro hn hd
    have hm : migrateSkill u sk content = .missingField (lchars "description") := by
      simp only [migrateSkill, hparse]
      rw [if_neg (by simp [hmeta])]
      rw [firstMissingField, if_neg (by simp [hn]), if_pos (by simp [hd])]
    exact ⟨hm, by rw [applyPassA, hm]⟩
  · intro hn hd ht
    have hm : migrateSkill u sk content = .missingField (lchars "triggers") := by
      simp only [migrateSkill, hparse]
      rw [if_neg (by simp [hmeta])]
      rw [firstMissingField, if_neg (by simp [hn]), if_neg (by simp [hd]),
        if_pos (by simp [ht])]
    exact ⟨hm, by rw [applyPassA, hm]⟩

/-! ## Claim C3: the description quoting rule -/

/-- The claim's list of structurally significant characters: colon, hash,
braces, brackets, pipe, angle bracket, ampersand, asterisk, bang,
percent, at-sign, backtick (`Char.ofNat 96`). -/
def claimSpecials : List Char :=
  [':', '#', '\x7b', '\x7d', '[', ']', '|', '>', '&', '*', '!', '%', '@',
   Char.ofNat 96]

theorem specialChars_eq_claim : specialChars = claimSpecials := by decide

theorem hasSpecial_scalar (d : Str) :
    hasSpecial (.s d) = d.any (fun c => c ∈ claimSpecials) := by
  rw [hasSpecial, specialChars_eq_claim]
  rw [Bool.eq_iff_iff]
  simp only [List.any_eq_true, pyCharIn]
  constructor
  · rintro ⟨c, h1, h2⟩
    exact ⟨c, by simpa using h2, by simpa using h1⟩
  · rintro ⟨c, h1, h2⟩
    exact ⟨c, by simpa using h2, by simpa using h1⟩

/-- C3: the third line built by `build_new_frontmatter` is the
description line, double-quoted exactly when the description contains
one of the claim's characters. -/
theorem claim_C3 (fm : YDict) (sk : Str) (d : Str)
    (hd : ydFind fm (lchars "description") = some (.s d)) :
    (buildLines fm sk)[2]? =
      some (if d.any (fun c => c ∈ claimSpecials) then
        lchars "description: \"" ++ d ++ ['"']
      else lchars "description: " ++ d) := by
  have h2 : descLine fm =
      if d.any (fun c => c ∈ claimSpecials) then
        lchars "description: \"" ++ d ++ ['"']
      else lchars "description: " ++ d := by
    simp only [descLine, hd, Option.getD_some, hasSpecial_scalar, ydGetStr, pyStr]
  simp [buildLines, h2]

/-- Witness for C3 at a description containing a colon. -/
theorem claim_C3_witness :
    (buildLines [(lchars "description", YVal.s (lchars "a: b"))] (lchars "sk"))[2]? =
      some (if (lchars "a: b").any (fun c => c ∈ claimSpecials) then
        lchars "description: \"" ++ lchars "a: b" ++ ['"']
      else lchars "description: " ++ lchars "a: b") :=
  claim_C3 [(lchars "description", YVal.s (lchars "a: b"))] (lchars "sk")
    (lchars "a: b") (by decide)

/-! ## Claim C4: exact field order of the rebuilt header -/

/-- Key of a top-level header line: the text before the first colon, for
lines that are neither the `---` delimiter nor indented. -/
def lineKeyTop (l : Str) : Option Str :=
  if l = dashes ∨ (lchars "  ").isPrefixOf l then none
  else (splitOnce [':'] l).map (fun p => p.1)

def topKeys (lines : List Str) : List Str := lines.filterMap lineKeyTop

/-- Key of a metadata-group line: the text between the two-space indent
and the first colon. -/
def lineKeyMeta (l : Str) : Option Str :=
  if (lchars "  ").isPrefixOf l then
    (splitOnce [':'] (l.drop 2)).map (fun p => p.1)
  else none

def metaKeys (lines : List Str) : List Str := lines.filterMap lineKeyMeta

theorem splitOnce_colon (key rest : Str) (hk : ':' ∉ key) :
    splitOnce [':'] (key ++ ':' :: rest) = some (key, rest) := by
  induction key with
  | nil =>
    rw [List.nil_append, splitOnce]
    rw [if_pos (by simp [List.isPrefixOf])]
    rfl
  | cons k ks ih =>
    rw [List.cons_append, splitOnce]
    have hk1 : k ≠ ':' := fun h => hk (by simp [h])
    rw [if_neg (by simp [List.isPrefixOf, hk1]; intro h; exact absurd h.symm hk1)]
    rw [ih (fun h => hk (by simp [h]))]

theorem lineKeyTop_field (key rest : Str) (hk : ':' ∉ key)
    (hne : key ≠ []) (hh : key.head? ≠ some '-') (hsp : key.head? ≠ some ' ') :
    lineKeyTop (key ++ ':' :: rest) = some key := by
  cases key with
  | nil => exact absurd rfl hne
  | cons k ks =>
    have hk2 : k ≠ '-' := fun h => hh (by simp [h])
    have hk3 : k ≠ ' ' := fun h => hsp (by simp [h])
    rw [lineKeyTop, if_neg, splitOnce_colon _ rest hk]
    · rfl
    · push_neg
      constructor
      · rw [dashes_eq, List.cons_append]
        intro h
        injection h with h1 _
        exact hk2 h1
      · intro h
        obtain ⟨t, ht⟩ := isPrefixOfEq.mp h
        rw [show lchars "  " = [' ', ' '] from rfl, List.cons_append,
          List.cons_append] at ht
        injection ht with h1 _
        exact hk3 h1.symm

theorem lineKeyTop_indented (x : Str) :
    lineKeyTop (lchars "  " ++ x) = none := by
  rw [lineKeyTop, if_pos (Or.inr (isPrefixOfEq.mpr ⟨x, rfl⟩))]

theorem lineKeyMeta_field (key rest : Str) (hk : ':' ∉ key) :
    lineKeyMeta (lchars "  " ++ (key ++ ':' :: rest)) = some key := by
  rw [lineKeyMeta, if_pos (isPrefixOfEq.mpr ⟨_, rfl⟩)]
  have hdrop : (lchars "  " ++ (key ++ ':' :: rest)).drop 2 = key ++ ':' :: rest :=
    rfl
  rw [hdrop, splitOnce_colon _ rest hk]
  rfl

theorem lineKeyMeta_top {l : Str} (hh : l.head? ≠ some ' ') :
    lineKeyMeta l = none := by
  rw [lineKeyMeta, if_neg]
  intro h
  obtain ⟨t, ht⟩ := isPrefixOfEq.mp h
  rw [show lchars "  " = [' ', ' '] from rfl, List.cons_append] at ht
  cases l with
  | nil => exact absurd ht (by simp)
  | cons c cs =>
    injection ht with h1 _
    exact hh (by rw [List.head?_cons, ← h1])

theorem lineKeyMeta_head {l : Str} (c : Char) (hc : l.head? = some c)
    (hcs : c ≠ ' ') : lineKeyMeta l = none :=
  lineKeyMeta_top (by rw [hc]; simpa using hcs)

theorem lineKeyTop_dashes : lineKeyTop (lchars "---") = none := by decide

theorem lineKeyTop_license :
    lineKeyTop (lchars "license: MIT") = some (lchars "license") := by decide

theorem lineKeyTop_metadata :
    lineKeyTop (lchars "metadata:") = some (lchars "metadata") := by decide

theorem lineKeyTop_author :
    lineKeyTop (lchars "  author: https://github.com/Jeffallan") = none := by
  decide

theorem lineKeyTop_version :
    lineKeyTop (lchars "  version: \"1.0.0\"") = none := by decide

theorem lineKeyMeta_dashes : lineKeyMeta (lchars "---") = none := by decide

theorem lineKeyMeta_license : lineKeyMeta (lchars "license: MIT") = none := by
  decide

theorem lineKeyMeta_metadata : lineKeyMeta (lchars "metadata:") = none := by
  decide

theorem lineKeyMeta_author :
    lineKeyMeta (lchars "  author: https://github.com/Jeffallan") =
      some (lchars "author") := by decide

theorem lineKeyMeta_version :
    lineKeyMeta (lchars "  version: \"1.0.0\"") = some (lchars "version") := by
  decide

/-- A concrete fields mapping exercising every optional field of the
builder, used by the C4 witness. -/
def claimC4fm : YDict :=
  [(lchars "name", .s (lchars "x")),
   (lchars "description", .s (lchars "y")),
   (lchars "triggers", .l [lchars "a", lchars "b"]),
   (lchars "role", .s (lchars "r")),
   (lchars "scope", .s (lchars "s")),
   (lchars "output-format", .s (lchars "o")),
   (lchars "allowed-tools", .s (lchars "Read"))]

/-- C4: the rebuilt header's top-level keys are exactly name,
description, license, optionally allowed-tools, then metadata; the
metadata group's keys are exactly author, version, domain, triggers,
then the optional role, scope, output-format; license is always MIT,
author and version are the fixed values, an unmapped identifier gets
`domain: unknown`, and a triggers list is flattened to one comma-joined
line. -/
theorem claim_C4 (fm : YDict) (sk : Str)
    (_hn : ydHasKey fm (lchars "name") = true)
    (_hd : ydHasKey fm (lchars "description") = true)
    (_ht : ydHasKey fm (lchars "triggers") = true) :
    topKeys (buildLines fm sk) =
      [lchars "name", lchars "description", lchars "license"] ++
      (if ydHasKey fm (lchars "allowed-tools") then [lchars "allowed-tools"]
        else []) ++
      [lchars "metadata"] ∧
    metaKeys (buildLines fm sk) =
      [lchars "author", lchars "version", lchars "domain", lchars "triggers"] ++
      (if ydHasKey fm (lchars "role") then [lchars "role"] else []) ++
      (if ydHasKey fm (lchars "scope") then [lchars "scope"] else []) ++
      (if ydHasKey fm (lchars "output-format") then [lchars "output-format"]
        else []) ∧
    lchars "license: MIT" ∈ buildLines fm sk ∧
    lchars "  author: https://github.com/Jeffallan" ∈ buildLines fm sk ∧
    lchars "  version: \"1.0.0\"" ∈ buildLines fm sk ∧
    (SKILL_DOMAIN_MAP.find? (fun p => p.1 = sk) = none →
      lchars "  domain: unknown" ∈ buildLines fm sk) ∧
    (∀ ts, ydFind fm (lchars "triggers") = some (.l ts) →
      lchars "  triggers: " ++ joinSep (lchars ", ") ts ∈ buildLines fm sk) := by
  have kname : lineKeyTop (lchars "name: " ++ ydGetStr fm (lchars "name")) =
      some (lchars "name") :=
    lineKeyTop_field (lchars "name") (' ' :: ydGetStr fm (lchars "name")) (by decide)
      (by decide) (by decide) (by decide)
  have kdesc : lineKeyTop (descLine fm) = some (lchars "description") := by
    rw [descLine]
    split
    · rw [List.append_assoc]
      exact lineKeyTop_field (lchars "description")
        (' ' :: '"' :: (ydGetStr fm (lchars "description") ++ ['"']))
        (by decide) (by decide) (by decide) (by decide)
    · exact lineKeyTop_field (lchars "description")
        (' ' :: ydGetStr fm (lchars "description"))
        (by decide) (by decide) (by decide) (by decide)
  have kat : lineKeyTop
      (lchars "allowed-tools: " ++ ydGetStr fm (lchars "allowed-tools")) =
      some (lchars "allowed-tools") :=
    lineKeyTop_field (lchars "allowed-tools")
      (' ' :: ydGetStr fm (lchars "allowed-tools")) (by decide)
      (by decide) (by decide) (by decide)
  have kdom : lineKeyTop
      (lchars "  domain: " ++ mapGetD SKILL_DOMAIN_MAP sk (lchars "unknown")) =
      none :=
    lineKeyTop_indented
      (lchars "domain: " ++ mapGetD SKILL_DOMAIN_MAP sk (lchars "unknown"))
  have ktrig : lineKeyTop (lchars "  triggers: " ++ triggersStr fm) = none :=
    lineKeyTop_indented (lchars "triggers: " ++ triggersStr fm)
  have krole : lineKeyTop (lchars "  role: " ++ ydGetStr fm (lchars "role")) =
      none :=
    lineKeyTop_indented (lchars "role: " ++ ydGetStr fm (lchars "role"))
  have kscope : lineKeyTop (lchars "  scope: " ++ ydGetStr fm (lchars "scope")) =
      none :=
    lineKeyTop_indented (lchars "scope: " ++ ydGetStr fm (lchars "scope"))
  have kout : lineKeyTop
      (lchars "  output-format: " ++ ydGetStr fm (lchars "output-format")) =
      none :=
    lineKeyTop_indented
      (lchars "output-format: " ++ ydGetStr fm (lchars "output-format"))
  have mname : lineKeyMeta (lchars "name: " ++ ydGetStr fm (lchars "name")) =
      none := lineKeyMeta_head 'n' rfl (by decide)
  have mdesc : lineKeyMeta (descLine fm) = none := by
    rw [descLine]
    split
    · exact lineKeyMeta_head 'd' rfl (by decide)
    · exact lineKeyMeta_head 'd' rfl (by decide)
  have mat : lineKeyMeta
      (lchars "allowed-tools: " ++ ydGetStr fm (lchars "allowed-tools")) =
      none := lineKeyMeta_head 'a' rfl (by decide)
  have mdom : lineKeyMeta
      (lchars "  domain: " ++ mapGetD SKILL_DOMAIN_MAP sk (lchars "unknown")) =
      some (lchars "domain") :=
    lineKeyMeta_field (lchars "domain")
      (' ' :: mapGetD SKILL_DOMAIN_MAP sk (lchars "unknown")) (by decide)
  have mtrig : lineKeyMeta (lchars "  triggers: " ++ triggersStr fm) =
      some (lchars "triggers") :=
    lineKeyMeta_field (lchars "triggers") (' ' :: triggersStr fm) (by decide)
  have mrole : lineKeyMeta (lchars "  role: " ++ ydGetStr fm (lchars "role")) =
      some (lchars "role") :=
    lineKeyMeta_field (lchars "role") (' ' :: ydGetStr fm (lchars "role"))
      (by decide)
  have mscope : lineKeyMeta (lchars "  scope: " ++ ydGetStr fm (lchars "scope")) =
      some (lchars "scope") :=
    lineKeyMeta_field (lchars "scope") (' ' :: ydGetStr fm (lchars "scope"))
      (by decide)
  have mout : lineKeyMeta
      (lchars "  output-format: " ++ ydGetStr fm (lchars "output-format")) =
      some (lchars "output-format") :=
    lineKeyMeta_field (lchars "output-format")
      (' ' :: ydGetStr fm (lchars "output-format")) (by decide)
  refine ⟨?_, ?_, ?_, ?_, ?_, ?_, ?_⟩
  · by_cases ha : ydHasKey fm (lchars "allowed-tools") = true <;>
      simp [buildLines, topKeys, ha, kname, kdesc, kat, kdom, ktrig, krole,
        kscope, kout, lineKeyTop_dashes, lineKeyTop_license,
        lineKeyTop_metadata, lineKeyTop_author, lineKeyTop_version,
        apply_ite topKeys]
  · by_cases hr : ydHasKey fm (lchars "role") = true <;>
      by_cases hs : ydHasKey fm (lchars "scope") = true <;>
      by_cases ho : ydHasKey fm (lchars "output-format") = true <;>
      by_cases ha : ydHasKey fm (lchars "allowed-tools") = true <;>
      simp [buildLines, metaKeys, ha, hr, hs, ho, mname, mdesc, mat, mdom,
        mtrig, mrole, mscope, mout, lineKeyMeta_dashes, lineKeyMeta_license,
        lineKeyMeta_metadata, lineKeyMeta_author, lineKeyMeta_version]
  · simp [buildLines]
  · simp [buildLines]
  · simp [buildLines]
  · intro hfind
    have hu : mapGetD SKILL_DOMAIN_MAP sk (lchars "unknown") = lchars "unknown" := by
      rw [mapGetD, hfind]
    have he : lchars "  domain: " ++ lchars "unknown" = lchars "  domain: unknown" := by
      decide
    rw [buildLines, hu, he]
    simp
  · intro ts hts
    have hu : triggersStr fm = joinSep (lchars ", ") ts := by
      rw [triggersStr, hts]
    simp [buildLines, hu]

/-- Witness for C4 at a concrete mapping with all optional fields. -/
theorem claim_C4_witness :
    topKeys (buildLines claimC4fm (lchars "zzz")) =
      [lchars "name", lchars "description", lchars "license"] ++
      (if ydHasKey claimC4fm (lchars "allowed-tools") then
        [lchars "allowed-tools"] else []) ++
      [lchars "metadata"] ∧
    metaKeys (buildLines claimC4fm (lchars "zzz")) =
      [lchars "author", lchars "version", lchars "domain", lchars "triggers"] ++
      (if ydHasKey claimC4fm (lchars "role") then [lchars "role"] else []) ++
      (if ydHasKey claimC4fm (lchars "scope") then [lchars "scope"] else []) ++
      (if ydHasKey claimC4fm (lchars "output-format") then
        [lchars "output-format"] else []) ∧
    lchars "license: MIT" ∈ buildLines claimC4fm (lchars "zzz") ∧
    lchars "  author: https://github.com/Jeffallan" ∈
      buildLines claimC4fm (lchars "zzz") ∧
    lchars "  version: \"1.0.0\"" ∈ buildLines claimC4fm (lchars "zzz") ∧
    (SKILL_DOMAIN_MAP.find? (fun p => p.1 = lchars "zzz") = none →
      lchars "  domain: unknown" ∈ buildLines claimC4fm (lchars "zzz")) ∧
    (∀ ts, ydFind claimC4fm (lchars "triggers") = some (.l ts) →
      lchars "  triggers: " ++ joinSep (lchars ", ") ts ∈
        buildLines claimC4fm (lchars "zzz")) :=
  claim_C4 claimC4fm (lchars "zzz") (by decide) (by decide) (by decide)

end Migrate

namespace Migrate

/-- Witness for C7 at a concrete document lacking `triggers`. -/
theorem claim_C7_witness :
    migrateSkill false (lchars "react-expert")
        (lchars "---\nname: x\ndescription: y\n---\nbody") =
      .missingField (lchars "triggers") ∧
    applyPassA false (lchars "react-expert")
        (lchars "---\nname: x\ndescription: y\n---\nbody") =
      lchars "---\nname: x\ndescription: y\n---\nbody" := by
  have h := claim_C7 false (lchars "react-expert")
    (lchars "---\nname: x\ndescription: y\n---\nbody")
    (fbParse (lchars "\nname: x\ndescription: y\n"))
    (lchars "\nbody")
    (by decide) (by decide)
  exact h.2.2 (by decide) (by decide) (by decide)

/-! ## Claim C6: related-skills extraction -/

theorem findSectionF_succ (fuel : Nat) (body : Str) :
    findSectionF (fuel + 1) body =
      match splitOnce relLit body with
      | none => none
      | some (_, after) =>
        match sectionAfter after with
        | some sec => some sec
        | none => findSectionF fuel after := rfl

/-- The concrete body of the claim's example. -/
def exBody : Str :=
  lchars "# T\n\n## Related Skills\n\n- **Fullstack Guardian** - security\n- **Nonexistent Tool** - nope\n"

/-- The same section mentioning the same valid name twice. -/
def exBodyDup : Str :=
  lchars "## Related Skills\n\n- **Fullstack Guardian** a\n- **Fullstack Guardian** b\n"

def exValid : List Str := [lchars "fullstack-guardian", lchars "react-expert"]

/-- C6: the resolver keeps, in occurrence order and without
deduplication, exactly the bold display names of the `## Related
Skills` section that normalize (lowercase, spaces to hyphens) to valid
identifiers, joined by `", "`; a body without the section heading yields
the empty string, and every returned identifier is in the valid set.
In particular the claim's example yields exactly `fullstack-guardian`. -/
theorem claim_C6 (body : Str) (valid : List Str) :
    (¬ relLit <:+: body → extract_related_skills body valid = []) ∧
    (∀ x ∈ extractRelatedIds body valid, x ∈ valid) ∧
    extract_related_skills exBody exValid = lchars "fullstack-guardian" ∧
    extract_related_skills exBodyDup exValid =
      lchars "fullstack-guardian, fullstack-guardian" ∧
    extract_related_skills exBody [] = [] := by
  refine ⟨?_, ?_, by decide, by decide, by decide⟩
  · intro h
    have h0 : splitOnce relLit body = none :=
      (splitOnce_none_iff (by decide)).mpr h
    rw [extract_related_skills, extractRelatedIds, findSectionF_succ, h0]
    rfl
  · intro x hx
    rw [extractRelatedIds] at hx
    cases hfs : findSectionF (body.length + 1) body with
    | none =>
      rw [hfs] at hx
      simp at hx
    | some sec =>
      rw [hfs] at hx
      have := List.mem_filter.mp hx
      exact of_decide_eq_true this.2

/-- Witness for C6: a body with no `## Related Skills` heading yields
the empty string. -/
theorem claim_C6_witness :
    extract_related_skills (lchars "# Title\nNothing else.\n")
      [lchars "fullstack-guardian"] = [] :=
  (claim_C6 (lchars "# Title\nNothing else.\n")
    [lchars "fullstack-guardian"]).1 (by decide)

/-! ## Claims C5 and C10: the textual splice of Pass B -/

theorem insAfterOutput_none {rs : Str} {ls : List Str}
    (h : ∀ l ∈ ls, isOFLine l = false) : insAfterOutput rs ls = none := by
  induction ls with
  | nil => rfl
  | cons l ls ih =>
    rw [insAfterOutput, if_neg (by simp [h l (by simp)])]
    rw [ih (fun x hx => h x (by simp [hx]))]

theorem insAfterOutput_eq {rs : Str} {pre suf : List Str} {ofLine : Str}
    (hpre : ∀ l ∈ pre, isOFLine l = false) (hof : isOFLine ofLine = true) :
    insAfterOutput rs (pre ++ ofLine :: suf) =
      some (pre ++ ofLine :: rsLine rs :: suf) := by
  induction pre with
  | nil =>
    rw [List.nil_append, insAfterOutput, if_pos hof, List.nil_append]
  | cons p pre' ih =>
    rw [List.cons_append, insAfterOutput,
      if_neg (by simp [hpre p (by simp)])]
    rw [ih (fun x hx => hpre x (by simp [hx]))]
    rfl

theorem insAfterLastMeta_none {rs : Str} {ls : List Str}
    (h : ∀ l ∈ ls, isMetaFieldLine l = false) : insAfterLastMeta rs ls = none := by
  induction ls with
  | nil => rfl
  | cons l ls ih =>
    rw [insAfterLastMeta, ih (fun x hx => h x (by simp [hx]))]
    rw [if_neg (by simp [h l (by simp)])]

theorem insAfterLastMeta_eq {rs : Str} {pre suf : List Str} {lm : Str}
    (hsuf : ∀ l ∈ suf, isMetaFieldLine l = false)
    (hlm : isMetaFieldLine lm = true) :
    insAfterLastMeta rs (pre ++ lm :: suf) =
      some (pre ++ lm :: rsLine rs :: suf) := by
  induction pre with
  | nil =>
    rw [List.nil_append, insAfterLastMeta, insAfterLastMeta_none hsuf,
      if_pos hlm, List.nil_append]
  | cons p pre' ih =>
    rw [List.cons_append, insAfterLastMeta, ih]
    rfl

theorem insAfterOutput_of_ex {rs : Str} {ls : List Str}
    (h : ∃ l ∈ ls, isOFLine l = true) :
    ∃ ls', insAfterOutput rs ls = some ls' ∧ rsLine rs ∈ ls' := by
  induction ls with
  | nil => simp at h
  | cons l ls ih =>
    by_cases hl : isOFLine l = true
    · exact ⟨l :: rsLine rs :: ls, by rw [insAfterOutput, if_pos hl], by simp⟩
    · obtain ⟨x, hx1, hx2⟩ := h
      rcases List.mem_cons.mp hx1 with rfl | hx1
      · exact absurd hx2 hl
      · obtain ⟨ls', h1, h2⟩ := ih ⟨x, hx1, hx2⟩
        refine ⟨l :: ls', ?_, by simp [h2]⟩
        rw [insAfterOutput, if_neg hl, h1]

/-- C5: applied to a document whose header contains an `output-format`
line (the Pass-A-migrated shape), the splice inserts exactly one
`related-skills:` line immediately after the first such line and keeps
every other header line, the delimiters and the body byte-identical;
with no such line, it inserts after the last indented `key:` line found
scanning backward. -/
theorem claim_C5 (content rel : Str) (p0 fmStr body : Str)
    (hsplit : split3 dashes content = some (p0, fmStr, body))
    (hm : containsSub (lchars "  related-skills:") fmStr = false) :
    (∀ pre ofLine suf,
      splitChar '\n' fmStr = pre ++ ofLine :: suf →
      (∀ l ∈ pre, isOFLine l = false) → isOFLine ofLine = true →
      add_related_skills_to_frontmatter content rel =
        dashes ++ joinSep ['\n'] (pre ++ ofLine :: rsLine rel :: suf) ++
          dashes ++ body) ∧
    ((∀ l ∈ splitChar '\n' fmStr, isOFLine l = false) →
      ∀ pre lm suf,
        splitChar '\n' fmStr = pre ++ lm :: suf →
        isMetaFieldLine lm = true → (∀ l ∈ suf, isMetaFieldLine l = false) →
        add_related_skills_to_frontmatter content rel =
          dashes ++ joinSep ['\n'] (pre ++ lm :: rsLine rel :: suf) ++
            dashes ++ body) := by
  constructor
  · intro pre ofLine suf hlines hpre hof
    simp only [add_related_skills_to_frontmatter, hsplit]
    rw [if_neg (by simp [hm])]
    rw [hlines, insAfterOutput_eq hpre hof]
  · intro hall pre lm suf hlines hlm hsuf
    simp only [add_related_skills_to_frontmatter, hsplit]
    rw [if_neg (by simp [hm])]
    rw [hlines] at hall ⊢
    rw [insAfterOutput_none (fun l hl => hall l hl),
      insAfterLastMeta_eq hsuf hlm]

/-- Witness for C5 on a concrete Pass-A-shaped header. -/
theorem claim_C5_witness :
    add_related_skills_to_frontmatter
        (lchars "---\nA\nmetadata:\n  output-format: o\n---\nB") (lchars "r") =
      dashes ++
        joinSep ['\n']
          ([lchars "", lchars "A", lchars "metadata:"] ++
            lchars "  output-format: o" ::
              rsLine (lchars "r") :: [lchars ""]) ++
        dashes ++ lchars "\nB" :=
  (claim_C5 (lchars "---\nA\nmetadata:\n  output-format: o\n---\nB")
      (lchars "r") [] (lchars "\nA\nmetadata:\n  output-format: o\n")
      (lchars "\nB") (by decide) (by decide)).1
    [lchars "", lchars "A", lchars "metadata:"]
    (lchars "  output-format: o") [lchars ""]
    (by decide) (by decide) (by decide)

/-- C10: the splice leaves the document unchanged when some header line
already starts with `  related-skills:`; and on the no-related-skills
path (empty extrated value) it still inserts the marker line
`  related-skills: ` (empty value) into the header. -/
theorem claim_C10 (content rel : Str) (p0 fmStr body : Str)
    (hsplit : split3 dashes content = some (p0, fmStr, body)) :
    ((∃ l ∈ splitChar '\n' fmStr,
        (lchars "  related-skills:").isPrefixOf l = true) →
      add_related_skills_to_frontmatter content rel = content) ∧
    (containsSub (lchars "  related-skills:") fmStr = false →
      (∃ l ∈ splitChar '\n' fmStr, isOFLine l = true) →
      ∃ nl, add_related_skills_to_frontmatter content [] =
        dashes ++ joinSep ['\n'] nl ++ dashes ++ body ∧
        lchars "  related-skills: " ∈ nl) := by
  constructor
  · intro ⟨l, hl, hpre⟩
    have hinf : (lchars "  related-skills:") <:+: fmStr :=
      (isPrefixOfEq.mp hpre).isInfix.trans (infix_of_mem_splitChar hl)
    have hc : containsSub (lchars "  related-skills:") fmStr = true :=
      (containsSub_iff (by decide)).mpr hinf
    simp only [add_related_skills_to_frontmatter, hsplit]
    rw [if_pos (by simp [hc])]
  · intro hm hex
    obtain ⟨ls', h1, h2⟩ :=
      (insAfterOutput_of_ex hex :
        ∃ ls', insAfterOutput [] (splitChar '\n' fmStr) = some ls' ∧
          rsLine [] ∈ ls')
    refine ⟨ls', ?_, ?_⟩
    · simp only [add_related_skills_to_frontmatter, hsplit]
      rw [if_neg (by simp [hm]), h1]
    · have : rsLine [] = lchars "  related-skills: " := by
        rw [rsLine, List.append_nil]
      rw [← this]
      exact h2

/-! ## Dash-freeness invariants of the parsers

The yaml part handed to either parsing strategy is `parts[1]` of the
split, so it cannot contain `---`; every scalar value and list item the
parsers produce is carved out of its lines, hence also dash-free.
These invariants feed the Pass A idempotence proof. -/

theorem pyLstrip_inf (l : Str) : pyLstrip l <:+: l :=
  (List.dropWhile_suffix isWs).isInfix

theorem pyRstrip_pre (l : Str) : pyRstrip l <+: l := by
  rw [← List.reverse_suffix, pyRstrip, List.reverse_reverse]
  exact List.dropWhile_suffix isWs

theorem pyStrip_inf (l : Str) : pyStrip l <:+: l :=
  (List.dropWhile_suffix isWs).isInfix.trans (pyRstrip_pre l).isInfix

theorem pyLstripDashSpace_inf (l : Str) : pyLstripDashSpace l <:+: l :=
  (List.dropWhile_suffix _).isInfix

theorem splitOnce_left_pre {sep l a b : Str} (h : splitOnce sep l = some (a, b)) :
    a <+: l := by
  rw [splitOnce_eq_append h, List.append_assoc]
  exact ⟨_, rfl⟩

theorem splitOnce_right_suf {sep l a b : Str} (h : splitOnce sep l = some (a, b)) :
    b <:+ l := by
  rw [splitOnce_eq_append h]
  exact ⟨_, rfl⟩

/-- Dash-freeness of a parsed value. -/
def valDF : YVal → Prop
  | .s v => DF v
  | .l items => ∀ i ∈ items, DF i
  | .m entries => ∀ e ∈ entries, DF e.1 ∧ DF e.2

/-- Dash-freeness of every value of a parsed dict. -/
def dictDF (d : YDict) : Prop := ∀ p ∈ d, valDF p.2

theorem mem_ydInsert {d : YDict} {k : Str} {v : YVal} {p : Str × YVal}
    (h : p ∈ ydInsert d k v) : p = (k, v) ∨ p ∈ d := by
  induction d with
  | nil => simpa [ydInsert] using h
  | cons q d ih =>
    obtain ⟨k0, v0⟩ := q
    rw [ydInsert] at h
    by_cases he : k0 = k
    · rw [if_pos he] at h
      rcases List.mem_cons.mp h with rfl | h'
      · exact Or.inl rfl
      · exact Or.inr (by simp [h'])
    · rw [if_neg he] at h
      rcases List.mem_cons.mp h with rfl | h'
      · exact Or.inr (by simp)
      · rcases ih h' with h'' | h''
        · exact Or.inl h''
        · exact Or.inr (by simp [h''])

theorem dictDF_insert {d : YDict} {k : Str} {v : YVal}
    (hd : dictDF d) (hv : valDF v) : dictDF (ydInsert d k v) := by
  intro p hp
  rcases mem_ydInsert hp with rfl | hp'
  · exact hv
  · exact hd p hp'

/-- The fold invariant of the fallback parser. -/
def fbDF (st : FBState) : Prop :=
  dictDF st.fm ∧ ∀ k items, st.pend = some (k, items) → ∀ i ∈ items, DF i

theorem fbFlush_DF {st : FBState} (h : fbDF st) : dictDF (fbFlush st) := by
  obtain ⟨fm0, pend0⟩ := st
  cases pend0 with
  | none => exact h.1
  | some p =>
    obtain ⟨k, items⟩ := p
    show dictDF (if k ≠ [] then ydInsert fm0 k (.l items) else fm0)
    by_cases hk : k ≠ []
    · rw [if_pos hk]
      exact dictDF_insert h.1 (h.2 k items rfl)
    · rw [if_neg hk]
      exact h.1

theorem fbStep_DF {st : FBState} {line : Str} (h : fbDF st) (hl : DF line) :
    fbDF (fbStep st line) := by
  obtain ⟨fm0, pend0⟩ := st
  rw [fbStep]
  by_cases h1 : (pyStrip line).isEmpty = true
  · rw [if_pos h1]; exact h
  · rw [if_neg h1]
    by_cases h2 : ((lchars "  - ").isPrefixOf line ||
        (lchars "    - ").isPrefixOf line) = true
    · rw [if_pos h2]
      cases pend0 with
      | none => exact h
      | some p =>
        obtain ⟨k, items⟩ := p
        show fbDF (if k ≠ [] then
            ({ fm := fm0,
               pend := some (k,
                items ++ [pyStrip (pyLstripDashSpace (pyStrip line))]) } :
              FBState)
          else ⟨fm0, some (k, items)⟩)
        by_cases hk : k ≠ []
        · rw [if_pos hk]
          refine ⟨h.1, ?_⟩
          intro k' items' he i hi
          have hk' : k = k' ∧ items ++
              [pyStrip (pyLstripDashSpace (pyStrip line))] = items' := by
            have := Option.some.inj he
            exact ⟨congrArg Prod.fst this, congrArg Prod.snd this⟩
          obtain ⟨rfl, rfl⟩ := hk'
          rcases List.mem_append.mp hi with hi' | hi'
          · exact h.2 k items rfl i hi'
          · have he2 : i = pyStrip (pyLstripDashSpace (pyStrip line)) := by
              simpa using hi'
            rw [he2]
            exact DF_mono ((pyStrip_inf _).trans
              ((pyLstripDashSpace_inf _).trans (pyStrip_inf _))) hl
        · rw [if_neg hk]; exact h
    · rw [if_neg h2]
      by_cases h3 : ':' ∈ line ∧ ¬ (lchars " ").isPrefixOf line = true
      · rw [if_pos h3]
        cases hsp : splitOnce [':'] line with
        | none => exact h
        | some p =>
          obtain ⟨k0, v0⟩ := p
          show fbDF (if pyStrip v0 = [] then
              ({ fm := fbFlush ⟨fm0, pend0⟩,
                 pend := some (pyStrip k0, []) } : FBState)
            else ⟨ydInsert (fbFlush ⟨fm0, pend0⟩) (pyStrip k0)
              (.s (pyStrip v0)), none⟩)
          have hv0 : DF (pyStrip v0) :=
            DF_mono ((pyStrip_inf v0).trans
              (splitOnce_right_suf hsp).isInfix) hl
          by_cases h4 : pyStrip v0 = []
          · rw [if_pos h4]
            refine ⟨fbFlush_DF h, ?_⟩
            intro k' items' he i hi
            have : ([] : List Str) = items' :=
              congrArg Prod.snd (Option.some.inj he)
            rw [← this] at hi
            simp at hi
          · rw [if_neg h4]
            refine ⟨dictDF_insert (fbFlush_DF h) hv0, ?_⟩
            intro k' items' he
            simp at he
      · rw [if_neg h3]
        exact h

theorem foldl_fbStep_DF {lines : List Str} {st : FBState}
    (hl : ∀ l ∈ lines, DF l) (hst : fbDF st) :
    fbDF (lines.foldl fbStep st) := by
  induction lines generalizing st with
  | nil => exact hst
  | cons l ls ih =>
    rw [List.foldl_cons]
    exact ih (fun x hx => hl x (by simp [hx]))
      (fbStep_DF hst (hl l (by simp)))

theorem fbParse_DF {yamlStr : Str} (h : DF yamlStr) : dictDF (fbParse yamlStr) := by
  rw [fbParse]
  refine fbFlush_DF (foldl_fbStep_DF ?_ ⟨by intro p hp; simp at hp,
    by intro k items he; simp at he⟩)
  intro l hl
  exact DF_mono ((infix_of_mem_splitChar hl).trans (pyStrip_inf _)) h

theorem ymBlockVal_DF {block : List Str} (h : ∀ l ∈ block, DF l) :
    valDF (ymBlockVal block) := by
  rw [ymBlockVal]
  cases hf : block.find? (fun l => !(pyStrip l).isEmpty) with
  | none => exact DF_nil
  | some l0 =>
    show valDF (if (lchars "- ").isPrefixOf (pyStrip l0) = true then
        YVal.l (ymItems block) else YVal.m (ymEntries block))
    by_cases hp : (lchars "- ").isPrefixOf (pyStrip l0) = true
    · rw [if_pos hp]
      intro i hi
      obtain ⟨l, hl, hl2⟩ := List.mem_filterMap.mp hi
      by_cases hq : (lchars "- ").isPrefixOf (pyStrip l) = true
      · rw [if_pos hq] at hl2
        obtain rfl : pyStrip ((pyStrip l).drop 2) = i := by simpa using hl2
        exact DF_mono ((pyStrip_inf _).trans
          (((List.drop_suffix 2 (pyStrip l)).isInfix).trans (pyStrip_inf _)))
          (h l hl)
      · rw [if_neg hq] at hl2
        simp at hl2
    · rw [if_neg hp]
      intro e he
      obtain ⟨l, hl, hl2⟩ := List.mem_filterMap.mp he
      by_cases hb : (pyStrip l).isEmpty = true
      · rw [if_pos hb] at hl2; simp at hl2
      · rw [if_neg hb] at hl2
        cases hsp : splitOnce [':'] l with
        | none => rw [hsp] at hl2; simp at hl2
        | some p =>
          obtain ⟨k0, v0⟩ := p
          rw [hsp] at hl2
          obtain rfl : (pyStrip k0, pyStrip v0) = e := by simpa using hl2
          constructor
          · exact DF_mono ((pyStrip_inf _).trans
              (splitOnce_left_pre hsp).isInfix) (h l hl)
          · exact DF_mono ((pyStrip_inf _).trans
              (splitOnce_right_suf hsp).isInfix) (h l hl)

theorem ymAuxF_DF {fuel : Nat} {lines : List Str} {fm : YDict}
    (hl : ∀ l ∈ lines, DF l) (hfm : dictDF fm) :
    dictDF (ymAuxF fuel lines fm) := by
  induction fuel generalizing lines fm with
  | zero => exact hfm
  | succ n ih =>
    cases lines with
    | nil => exact hfm
    | cons line rest =>
      rw [ymAuxF]
      have hrest : ∀ l ∈ rest, DF l := fun x hx => hl x (by simp [hx])
      by_cases h1 : (pyStrip line).isEmpty = true
      · rw [if_pos h1]; exact ih hrest hfm
      · rw [if_neg h1]
        by_cases h2 : (lchars " ").isPrefixOf line = true
        · rw [if_pos h2]; exact ih hrest hfm
        · rw [if_neg h2]
          cases hsp : splitOnce [':'] line with
          | none => exact ih hrest hfm
          | some p =>
            obtain ⟨k0, v0⟩ := p
            show dictDF (if (pyStrip v0).isEmpty = true then
                ymAuxF n (rest.dropWhile isIndentedOrBlank)
                  (ydInsert fm (pyStrip k0)
                    (ymBlockVal (rest.takeWhile isIndentedOrBlank)))
              else ymAuxF n rest (ydInsert fm (pyStrip k0) (.s (pyStrip v0))))
            by_cases h3 : (pyStrip v0).isEmpty = true
            · rw [if_pos h3]
              refine ih (fun x hx => hrest x ?_) (dictDF_insert hfm ?_)
              · exact (List.dropWhile_sublist _).subset hx
              · refine ymBlockVal_DF (fun x hx => hrest x ?_)
                exact (List.takeWhile_sublist _).subset hx
            · rw [if_neg h3]
              refine ih hrest (dictDF_insert hfm ?_)
              exact DF_mono ((pyStrip_inf _).trans
                (splitOnce_right_suf hsp).isInfix) (hl line (by simp))

theorem ymParse_DF {yamlStr : Str} (h : DF yamlStr) : dictDF (ymParse yamlStr) := by
  rw [ymParse]
  exact ymAuxF_DF (fun l hl => DF_mono (infix_of_mem_splitChar hl) h)
    (by intro p hp; simp at hp)

/-! ## Dash-freeness of the rebuilt header lines -/

theorem ydFind_mem {d : YDict} {k : Str} {v : YVal} (h : ydFind d k = some v) :
    (k, v) ∈ d := by
  induction d with
  | nil => simp [ydFind] at h
  | cons q d ih =>
    obtain ⟨k0, v0⟩ := q
    rw [ydFind] at h
    by_cases he : k0 = k
    · rw [if_pos he] at h
      obtain rfl : v0 = v := by simpa using h
      simp [he]
    · rw [if_neg he] at h
      simp [ih h]

theorem DF_field_line {pre v : Str} (hpre : DF pre)
    (hl : pre.getLast? ≠ some '-') (hv : DF v) : DF (pre ++ v) :=
  DF_append hpre hv (Or.inl hl)

theorem pyReprStr_DF {s : Str} (h : DF s) : DF (pyReprStr s) := by
  rw [pyReprStr]
  have h1 : DF (s ++ ['\'']) := DF_append h (by decide) (Or.inr (by decide))
  exact DF_cons (by decide) h1

theorem joinSep_comma_DF {items : List Str} (h : ∀ i ∈ items, DF i) :
    DF (joinSep (lchars ", ") items) :=
  joinSep_DF (by decide) (by decide) (by decide) (by decide) h

theorem pyStr_DF {v : YVal} (h : valDF v) : DF (pyStr v) := by
  cases v with
  | s w => exact h
  | l items =>
    rw [pyStr]
    have h1 : DF (joinSep (lchars ", ") (items.map pyReprStr)) := by
      refine joinSep_comma_DF ?_
      intro i hi
      obtain ⟨x, hx, rfl⟩ := List.mem_map.mp hi
      exact pyReprStr_DF (h x hx)
    have h2 : DF (joinSep (lchars ", ") (items.map pyReprStr) ++ [']']) :=
      DF_append h1 (by decide) (Or.inr (by decide))
    exact DF_cons (by decide) h2
  | m entries =>
    rw [pyStr]
    have h1 : DF (joinSep (lchars ", ")
        (entries.map (fun p => pyReprStr p.1 ++ lchars ": " ++ pyReprStr p.2))) := by
      refine joinSep_comma_DF ?_
      intro i hi
      obtain ⟨x, hx, rfl⟩ := List.mem_map.mp hi
      have hk : DF (pyReprStr x.1) := pyReprStr_DF (h x hx).1
      have hv : DF (pyReprStr x.2) := pyReprStr_DF (h x hx).2
      have h2 : DF (pyReprStr x.1 ++ lchars ": ") := by
        refine DF_append hk (by decide) (Or.inr (by decide))
      refine DF_append h2 hv (Or.inl ?_)
      rw [List.getLast?_append,
        show (lchars ": ").getLast? = some ' ' from rfl]
      simp
    have h2 : DF (joinSep (lchars ", ")
        (entries.map (fun p => pyReprStr p.1 ++ lchars ": " ++ pyReprStr p.2)) ++
          ['\x7d']) :=
      DF_append h1 (by decide) (Or.inr (by decide))
    exact DF_cons (by decide) h2

theorem ydGetStr_DF {fm : YDict} (k : Str) (h : dictDF fm) :
    DF (ydGetStr fm k) := by
  rw [ydGetStr]
  cases hf : ydFind fm k with
  | none => exact DF_nil
  | some v => exact pyStr_DF (h (k, v) (ydFind_mem hf))

theorem triggersStr_DF {fm : YDict} (h : dictDF fm) : DF (triggersStr fm) := by
  rw [triggersStr]
  cases hf : ydFind fm (lchars "triggers") with
  | none => exact DF_nil
  | some v =>
    cases v with
    | s w => exact pyStr_DF (h _ (ydFind_mem hf))
    | l items =>
      exact joinSep_comma_DF (fun i hi => (h _ (ydFind_mem hf)) i hi)
    | m entries => exact pyStr_DF (h _ (ydFind_mem hf))

theorem domain_map_DF : ∀ p ∈ SKILL_DOMAIN_MAP, DF p.2 := by decide

theorem mapGetD_domain_DF (sk : Str) :
    DF (mapGetD SKILL_DOMAIN_MAP sk (lchars "unknown")) := by
  rw [mapGetD]
  cases hf : SKILL_DOMAIN_MAP.find? (fun p => p.1 = sk) with
  | none => decide
  | some p => exact domain_map_DF p (List.mem_of_find?_eq_some hf)

theorem descLine_DF {fm : YDict} (h : dictDF fm) : DF (descLine fm) := by
  rw [descLine]
  split
  · have h1 : DF (lchars "description: \"" ++ ydGetStr fm (lchars "description")) :=
      DF_field_line (by decide) (by decide) (ydGetStr_DF _ h)
    exact DF_append h1 (by decide) (Or.inr (by decide))
  · exact DF_field_line (by decide) (by decide) (ydGetStr_DF _ h)

theorem mem_opt_line {l x : Str} {c : Bool}
    (h : l ∈ if c = true then [x] else []) : l = x := by
  by_cases hc : c = true
  · rw [if_pos hc] at h; simpa using h
  · rw [if_neg hc] at h; simp at h

/-- The header lines before the `metadata:` line. -/
def preMetaLines (fm : YDict) : List Str :=
  [lchars "name: " ++ ydGetStr fm (lchars "name"),
   descLine fm,
   lchars "license: MIT"] ++
  (if ydHasKey fm (lchars "allowed-tools") then
    [lchars "allowed-tools: " ++ ydGetStr fm (lchars "allowed-tools")]
  else [])

/-- The metadata-group lines after the `metadata:` line. -/
def postMetaLines (fm : YDict) (sk : Str) : List Str :=
  [lchars "  author: https://github.com/Jeffallan",
   lchars "  version: \"1.0.0\"",
   lchars "  domain: " ++ mapGetD SKILL_DOMAIN_MAP sk (lchars "unknown"),
   lchars "  triggers: " ++ triggersStr fm] ++
  (if ydHasKey fm (lchars "role") then
    [lchars "  role: " ++ ydGetStr fm (lchars "role")]
  else []) ++
  (if ydHasKey fm (lchars "scope") then
    [lchars "  scope: " ++ ydGetStr fm (lchars "scope")]
  else []) ++
  (if ydHasKey fm (lchars "output-format") then
    [lchars "  output-format: " ++ ydGetStr fm (lchars "output-format")]
  else [])

/-- The lines strictly between the two `---` delimiter lines. -/
def innerBuildLines (fm : YDict) (sk : Str) : List Str :=
  preMetaLines fm ++ lchars "metadata:" :: postMetaLines fm sk

theorem buildLines_eq (fm : YDict) (sk : Str) :
    buildLines fm sk =
      lchars "---" :: (innerBuildLines fm sk ++ [lchars "---"]) := by
  rw [buildLines, innerBuildLines, preMetaLines, postMetaLines]
  simp [List.append_assoc]

theorem forall_opt {x : Str} {c : Bool} (hx : DF x) :
    ∀ l ∈ (if c = true then [x] else []), DF l := by
  intro l hl
  obtain rfl := mem_opt_line hl
  exact hx

theorem preMetaLines_DF {fm : YDict} (h : dictDF fm) :
    ∀ l ∈ preMetaLines fm, DF l := by
  rw [preMetaLines]
  refine List.forall_mem_append.mpr ⟨?_, ?_⟩
  · refine List.forall_mem_cons.mpr ⟨?_, List.forall_mem_cons.mpr ⟨?_,
      List.forall_mem_cons.mpr ⟨?_, ?_⟩⟩⟩
    · exact DF_field_line (by decide) (by decide) (ydGetStr_DF _ h)
    · exact descLine_DF h
    · decide
    · intro l hl; simp at hl
  · exact forall_opt (DF_field_line (by decide) (by decide) (ydGetStr_DF _ h))

theorem postMetaLines_DF {fm : YDict} {sk : Str} (h : dictDF fm) :
    ∀ l ∈ postMetaLines fm sk, DF l := by
  rw [postMetaLines]
  refine List.forall_mem_append.mpr ⟨List.forall_mem_append.mpr
    ⟨List.forall_mem_append.mpr ⟨?_, ?_⟩, ?_⟩, ?_⟩
  · refine List.forall_mem_cons.mpr ⟨?_, List.forall_mem_cons.mpr ⟨?_,
      List.forall_mem_cons.mpr ⟨?_, List.forall_mem_cons.mpr ⟨?_, ?_⟩⟩⟩⟩
    · decide
    · decide
    · exact DF_field_line (by decide) (by decide) (mapGetD_domain_DF sk)
    · exact DF_field_line (by decide) (by decide) (triggersStr_DF h)
    · intro l hl; simp at hl
  · exact forall_opt (DF_field_line (by decide) (by decide) (ydGetStr_DF _ h))
  · exact forall_opt (DF_field_line (by decide) (by decide) (ydGetStr_DF _ h))
  · exact forall_opt (DF_field_line (by decide) (by decide) (ydGetStr_DF _ h))

theorem innerBuildLines_DF {fm : YDict} {sk : Str} (h : dictDF fm) :
    ∀ l ∈ innerBuildLines fm sk, DF l := by
  rw [innerBuildLines]
  refine List.forall_mem_append.mpr ⟨preMetaLines_DF h,
    List.forall_mem_cons.mpr ⟨by decide, postMetaLines_DF h⟩⟩

/-! ## A line flanked by newlines survives `strip` and `split("\n")` -/

theorem splitChar_noNl {m : Str} (hm : '\n' ∉ m) :
    splitChar '\n' m = [m] := by
  induction m with
  | nil => rfl
  | cons c cs ih =>
    rw [splitChar, if_neg (by intro h; exact hm (by simp [h]))]
    rw [ih (fun h => hm (by simp [h]))]

theorem splitChar_after {m v : Str} (hm : '\n' ∉ m) :
    splitChar '\n' (m ++ '\n' :: v) = m :: splitChar '\n' v := by
  induction m with
  | nil => rw [List.nil_append, splitChar, if_pos rfl]
  | cons c cs ih =>
    rw [List.cons_append, splitChar,
      if_neg (by intro h; exact hm (by simp [h]))]
    rw [ih (fun h => hm (by simp [h]))]

theorem mem_splitChar_marked {m tail : Str} (hm : '\n' ∉ m)
    (ht : tail = [] ∨ tail.head? = some '\n') :
    ∀ u : Str, m ∈ (splitChar '\n' (u ++ '\n' :: (m ++ tail))).tail := by
  intro u
  induction u with
  | nil =>
    rw [List.nil_append, splitChar, if_pos rfl]
    rcases ht with rfl | ht
    · rw [List.append_nil, splitChar_noNl hm]
      simp
    · obtain ⟨w, rfl⟩ : ∃ w, tail = '\n' :: w := by
        cases tail with
        | nil => simp at ht
        | cons x xs =>
          obtain rfl : x = '\n' := by simpa using ht
          exact ⟨xs, rfl⟩
      rw [splitChar_after hm]
      simp
  | cons c u' ih =>
    rw [List.cons_append, splitChar]
    by_cases hc : c = '\n'
    · rw [if_pos hc]
      exact List.mem_of_mem_tail ih
    · rw [if_neg hc]
      cases heq : splitChar '\n' (u' ++ '\n' :: (m ++ tail)) with
      | nil => exact absurd heq (splitChar_ne_nil _ _)
      | cons p ps =>
        rw [heq] at ih
        simpa using ih

theorem mem_splitChar_flanked {m tail : Str} (hm : '\n' ∉ m)
    (ht : tail = [] ∨ tail.head? = some '\n') (u : Str) :
    m ∈ splitChar '\n' (u ++ '\n' :: (m ++ tail)) :=
  List.mem_of_mem_tail (mem_splitChar_marked hm ht u)

theorem pyRstrip_append (a b : Str) :
    pyRstrip (a ++ b) = if pyRstrip b = [] then pyRstrip a else a ++ pyRstrip b := by
  rw [pyRstrip, List.reverse_append, List.dropWhile_append]
  by_cases hb : (b.reverse.dropWhile isWs).isEmpty = true
  · rw [if_pos hb]
    have : pyRstrip b = [] := by
      rw [pyRstrip, List.isEmpty_iff.mp hb]
      rfl
    rw [if_pos this]
    rfl
  · rw [if_neg hb]
    have : ¬ pyRstrip b = [] := by
      intro hc
      rw [pyRstrip] at hc
      have := congrArg List.reverse hc
      rw [List.reverse_reverse] at this
      exact hb (by rw [this]; rfl)
    rw [if_neg this, List.reverse_append, List.reverse_reverse, pyRstrip]

theorem pyRstrip_of_last {m : Str} {c : Char} (hc : m.getLast? = some c)
    (hw : isWs c = false) : pyRstrip m = m := by
  rw [pyRstrip]
  obtain ⟨rev, hrev⟩ : ∃ rev, m.reverse = c :: rev := by
    cases hr : m.reverse with
    | nil =>
      exfalso
      have := congrArg List.head? hr
      rw [List.head?_reverse, hc] at this
      simp at this
    | cons x xs =>
      refine ⟨xs, ?_⟩
      have := congrArg List.head? hr
      rw [List.head?_reverse, hc] at this
      obtain rfl : c = x := by simpa using this
      rfl
  rw [hrev, List.dropWhile_cons, if_neg (by simp [hw]), ← hrev,
    List.reverse_reverse]

theorem pyRstrip_append_left {m tail : Str} {c : Char}
    (hc : m.getLast? = some c) (hw : isWs c = false) :
    pyRstrip (m ++ tail) = m ++ pyRstrip tail := by
  rw [pyRstrip_append]
  by_cases hb : pyRstrip tail = []
  · rw [if_pos hb, hb, List.append_nil, pyRstrip_of_last hc hw]
  · rw [if_neg hb]

theorem pyLstrip_append (a b : Str) :
    pyLstrip (a ++ b) = if pyLstrip a = [] then pyLstrip b else pyLstrip a ++ b := by
  rw [pyLstrip, List.dropWhile_append]
  by_cases ha : pyLstrip a = []
  · rw [if_pos (show (a.dropWhile isWs).isEmpty = true by
      rw [show a.dropWhile isWs = pyLstrip a from rfl, ha]; rfl), if_pos ha]
    rfl
  · rw [if_neg (show ¬ (List.dropWhile isWs a).isEmpty = true from
      fun hc => ha (List.isEmpty_iff.mp hc)), if_neg ha]
    rfl

theorem pyLstrip_of_head {m : Str} {c : Char} (hc : m.head? = some c)
    (hw : isWs c = false) : pyLstrip m = m := by
  cases m with
  | nil => rfl
  | cons x xs =>
    obtain rfl : x = c := by simpa using hc
    rw [pyLstrip, List.dropWhile_cons, if_neg (by simp [hw])]

theorem head?_of_ne_nil_pre {x y : Str} (h : x <+: y) (hx : x ≠ []) :
    x.head? = y.head? := by
  obtain ⟨t, rfl⟩ := h
  cases x with
  | nil => exact absurd rfl hx
  | cons c cs => rfl

/-- A nonblank line flanked by newlines survives stripping and splitting
of the whole header text. -/
theorem mem_lines_strip {m : Str} (hm : '\n' ∉ m) (hm0 : m ≠ [])
    {hc : Char} (hhead : m.head? = some hc) (hhw : isWs hc = false)
    {lc : Char} (hlast : m.getLast? = some lc) (hlw : isWs lc = false)
    {tail : Str} (ht : tail = [] ∨ tail.head? = some '\n') (u : Str) :
    m ∈ splitChar '\n' (pyStrip (u ++ '\n' :: (m ++ tail))) := by
  have step1 : pyRstrip (m ++ tail) = m ++ pyRstrip tail :=
    pyRstrip_append_left hlast hlw
  have hne : m ++ pyRstrip tail ≠ [] := by
    intro hcon
    exact hm0 (by simpa using (List.append_eq_nil.mp hcon).1)
  have step2 : pyRstrip ('\n' :: (m ++ tail)) = '\n' :: (m ++ pyRstrip tail) := by
    have : ('\n' :: (m ++ tail) : Str) = ['\n'] ++ (m ++ tail) := rfl
    rw [this, pyRstrip_append, step1, if_neg hne]
    rfl
  have step3 : pyRstrip (u ++ '\n' :: (m ++ tail)) =
      u ++ '\n' :: (m ++ pyRstrip tail) := by
    rw [pyRstrip_append, step2, if_neg (by simp)]
  have ht' : pyRstrip tail = [] ∨ (pyRstrip tail).head? = some '\n' := by
    rcases ht with rfl | ht
    · left; rfl
    · by_cases hz : pyRstrip tail = []
      · left; exact hz
      · right
        rw [head?_of_ne_nil_pre (pyRstrip_pre tail) hz]
        exact ht
  rw [pyStrip, step3, pyLstrip_append]
  by_cases hu : pyLstrip u = []
  · rw [if_pos hu]
    have e1 : pyLstrip ('\n' :: (m ++ pyRstrip tail)) = m ++ pyRstrip tail := by
      rw [pyLstrip, List.dropWhile_cons, if_pos (by decide)]
      rw [← pyLstrip, pyLstrip_of_head (by rw [List.head?_append_of_ne_nil _ hm0]; exact hhead) hhw]
    rw [e1]
    rcases ht' with hz | hz
    · rw [hz, List.append_nil, splitChar_noNl hm]
      simp
    · obtain ⟨w, hw2⟩ : ∃ w, pyRstrip tail = '\n' :: w := by
        cases hzz : pyRstrip tail with
        | nil => rw [hzz] at hz; simp at hz
        | cons x xs =>
          rw [hzz] at hz
          obtain rfl : x = '\n' := by simpa using hz
          exact ⟨xs, rfl⟩
      rw [hw2, splitChar_after hm]
      simp
  · rw [if_neg hu]
    exact mem_splitChar_flanked hm ht' (pyLstrip u)

/-! ## Both parsers record the `metadata` key when a `metadata:` line occurs -/

/-- The fold invariant: `metadata` is already a key, or it is the pending
key (about to be flushed). -/
def fbHasMeta (st : FBState) : Prop :=
  ydHasKey st.fm (lchars "metadata") = true ∨
  ∃ its, st.pend = some (lchars "metadata", its)

theorem fbFlush_hasMeta {st : FBState} (h : fbHasMeta st) :
    ydHasKey (fbFlush st) (lchars "metadata") = true := by
  obtain ⟨fm0, pend0⟩ := st
  cases pend0 with
  | none =>
    rcases h with h | ⟨its, he⟩
    · exact h
    · simp at he
  | some p =>
    obtain ⟨k, items⟩ := p
    show ydHasKey (if k ≠ [] then ydInsert fm0 k (.l items) else fm0)
      (lchars "metadata") = true
    rcases h with h | ⟨its, he⟩
    · by_cases hk : k ≠ []
      · rw [if_pos hk]
        exact ydHasKey_insert _ _ _ _ h
      · rw [if_neg hk]
        exact h
    · obtain ⟨rfl, rfl⟩ : k = lchars "metadata" ∧ items = its := by
        simpa using he
      rw [if_pos (by decide)]
      exact ydHasKey_insert_self _ _ _

theorem fbStep_presMeta {st : FBState} (line : Str) (h : fbHasMeta st) :
    fbHasMeta (fbStep st line) := by
  obtain ⟨fm0, pend0⟩ := st
  rw [fbStep]
  by_cases h1 : (pyStrip line).isEmpty = true
  · rw [if_pos h1]; exact h
  · rw [if_neg h1]
    by_cases h2 : ((lchars "  - ").isPrefixOf line ||
        (lchars "    - ").isPrefixOf line) = true
    · rw [if_pos h2]
      cases pend0 with
      | none => exact h
      | some p =>
        obtain ⟨k, items⟩ := p
        show fbHasMeta (if k ≠ [] then
            ({ fm := fm0,
               pend := some (k,
                items ++ [pyStrip (pyLstripDashSpace (pyStrip line))]) } :
              FBState)
          else ⟨fm0, some (k, items)⟩)
        by_cases hk : k ≠ []
        · rw [if_pos hk]
          rcases h with h | ⟨its, he⟩
          · exact Or.inl h
          · refine Or.inr ⟨its ++ [pyStrip (pyLstripDashSpace (pyStrip line))], ?_⟩
            obtain ⟨rfl, rfl⟩ : k = lchars "metadata" ∧ items = its := by
              simpa using he
            rfl
        · rw [if_neg hk]; exact h
    · rw [if_neg h2]
      by_cases h3 : ':' ∈ line ∧ ¬ (lchars " ").isPrefixOf line = true
      · rw [if_pos h3]
        cases hsp : splitOnce [':'] line with
        | none => exact h
        | some p =>
          obtain ⟨k0, v0⟩ := p
          show fbHasMeta (if pyStrip v0 = [] then
              ({ fm := fbFlush ⟨fm0, pend0⟩,
                 pend := some (pyStrip k0, []) } : FBState)
            else ⟨ydInsert (fbFlush ⟨fm0, pend0⟩) (pyStrip k0)
              (.s (pyStrip v0)), none⟩)
          by_cases h4 : pyStrip v0 = []
          · rw [if_pos h4]
            exact Or.inl (fbFlush_hasMeta h)
          · rw [if_neg h4]
            exact Or.inl (ydHasKey_insert _ _ _ _ (fbFlush_hasMeta h))
      · rw [if_neg h3]
        exact h

theorem fbStep_metadata (st : FBState) :
    fbStep st (lchars "metadata:") =
      { fm := fbFlush st, pend := some (lchars "metadata", []) } := rfl

theorem foldl_fbStep_presMeta (lines : List Str) {st : FBState}
    (h : fbHasMeta st) : fbHasMeta (lines.foldl fbStep st) := by
  induction lines generalizing st with
  | nil => exact h
  | cons l ls ih =>
    rw [List.foldl_cons]
    exact ih (fbStep_presMeta l h)

theorem foldl_fbStep_metaLine {lines : List Str}
    (h : lchars "metadata:" ∈ lines) (st : FBState) :
    fbHasMeta (lines.foldl fbStep st) := by
  induction lines generalizing st with
  | nil => simp at h
  | cons l ls ih =>
    rw [List.foldl_cons]
    rcases List.mem_cons.mp h with rfl | h'
    · rw [fbStep_metadata]
      exact foldl_fbStep_presMeta ls (Or.inr ⟨[], rfl⟩)
    · exact ih h' _

/-- The fallback parser's result has the `metadata` key whenever the
stripped header has a `metadata:` line. -/
theorem fbParse_metaLine {yamlStr : Str}
    (h : lchars "metadata:" ∈ splitChar '\n' (pyStrip yamlStr)) :
    ydHasKey (fbParse yamlStr) (lchars "metadata") = true := by
  rw [fbParse]
  exact fbFlush_hasMeta (foldl_fbStep_metaLine h _)

theorem ymAuxF_presMeta {fuel : Nat} {lines : List Str} {fm : YDict}
    (h : ydHasKey fm (lchars "metadata") = true) :
    ydHasKey (ymAuxF fuel lines fm) (lchars "metadata") = true := by
  induction fuel generalizing lines fm with
  | zero => exact h
  | succ n ih =>
    cases lines with
    | nil => exact h
    | cons line rest =>
      rw [ymAuxF]
      by_cases h1 : (pyStrip line).isEmpty = true
      · rw [if_pos h1]; exact ih h
      · rw [if_neg h1]
        by_cases h2 : (lchars " ").isPrefixOf line = true
        · rw [if_pos h2]; exact ih h
        · rw [if_neg h2]
          cases hsp : splitOnce [':'] line with
          | none => exact ih h
          | some p =>
            obtain ⟨k0, v0⟩ := p
            show ydHasKey (if (pyStrip v0).isEmpty = true then
                ymAuxF n (rest.dropWhile isIndentedOrBlank)
                  (ydInsert fm (pyStrip k0)
                    (ymBlockVal (rest.takeWhile isIndentedOrBlank)))
              else ymAuxF n rest (ydInsert fm (pyStrip k0) (.s (pyStrip v0))))
              (lchars "metadata") = true
            by_cases h3 : (pyStrip v0).isEmpty = true
            · rw [if_pos h3]
              exact ih (ydHasKey_insert _ _ _ _ h)
            · rw [if_neg h3]
              exact ih (ydHasKey_insert _ _ _ _ h)

theorem mem_dropWhile_of_neg {p : Str → Bool} {x : Str} {l : List Str}
    (h : x ∈ l) (hx : p x = false) : x ∈ l.dropWhile p := by
  induction l with
  | nil => simp at h
  | cons y ys ih =>
    rw [List.dropWhile_cons]
    rcases List.mem_cons.mp h with rfl | h'
    · rw [if_neg (by simp [hx])]
      simp
    · by_cases hy : p y = true
      · rw [if_pos hy]
        exact ih h'
      · rw [if_neg hy]
        simp [h']

theorem ymAuxF_metaStep (n : Nat) (rest : List Str) (fm : YDict) :
    ymAuxF (n + 1) (lchars "metadata:" :: rest) fm =
      ymAuxF n (rest.dropWhile isIndentedOrBlank)
        (ydInsert fm (lchars "metadata")
          (ymBlockVal (rest.takeWhile isIndentedOrBlank))) := rfl

theorem ymAuxF_metaLine {fuel : Nat} {lines : List Str} {fm : YDict}
    (hfuel : lines.length < fuel) (h : lchars "metadata:" ∈ lines) :
    ydHasKey (ymAuxF fuel lines fm) (lchars "metadata") = true := by
  induction fuel generalizing lines fm with
  | zero => omega
  | succ n ih =>
    cases lines with
    | nil => simp at h
    | cons line rest =>
      have hless : rest.length < n := by
        simp only [List.length_cons] at hfuel
        omega
      rcases List.mem_cons.mp h with rfl | h'
      · rw [ymAuxF_metaStep]
        exact ymAuxF_presMeta (ydHasKey_insert_self _ _ _)
      · rw [ymAuxF]
        by_cases h1 : (pyStrip line).isEmpty = true
        · rw [if_pos h1]; exact ih hless h'
        · rw [if_neg h1]
          by_cases h2 : (lchars " ").isPrefixOf line = true
          · rw [if_pos h2]; exact ih hless h'
          · rw [if_neg h2]
            cases hsp : splitOnce [':'] line with
            | none => exact ih hless h'
            | some p =>
              obtain ⟨k0, v0⟩ := p
              show ydHasKey (if (pyStrip v0).isEmpty = true then
                  ymAuxF n (rest.dropWhile isIndentedOrBlank)
                    (ydInsert fm (pyStrip k0)
                      (ymBlockVal (rest.takeWhile isIndentedOrBlank)))
                else ymAuxF n rest (ydInsert fm (pyStrip k0) (.s (pyStrip v0))))
                (lchars "metadata") = true
              by_cases h3 : (pyStrip v0).isEmpty = true
              · rw [if_pos h3]
                refine ih (lt_of_le_of_lt (List.dropWhile_sublist _).length_le hless) ?_
                exact mem_dropWhile_of_neg h' (by decide)
              · rw [if_neg h3]
                exact ih hless h'

/-- The structured parser's result has the `metadata` key whenever the
header has a `metadata:` line. -/
theorem ymParse_metaLine {yamlStr : Str}
    (h : lchars "metadata:" ∈ splitChar '\n' yamlStr) :
    ydHasKey (ymParse yamlStr) (lchars "metadata") = true := by
  rw [ymParse]
  exact ymAuxF_metaLine (Nat.lt_succ_self _) h

/-! ## Re-parsing a rebuilt header -/

theorem preMetaLines_ne_nil (fm : YDict) : preMetaLines fm ≠ [] := by
  rw [preMetaLines]
  simp

theorem innerBuildLines_ne_nil (fm : YDict) (sk : Str) :
    innerBuildLines fm sk ≠ [] := by
  rw [innerBuildLines]
  intro h
  exact preMetaLines_ne_nil fm (List.append_eq_nil.mp h).1

/-- The rebuilt header text is the three dashes, a newline-flanked inner
text, and the three dashes again. -/
theorem bnf_eq (fm : YDict) (sk : Str) :
    build_new_frontmatter fm sk =
      dashes ++ (('\n' :: (joinSep ['\n'] (innerBuildLines fm sk) ++ ['\n'])) ++
        dashes) := by
  rw [build_new_frontmatter, buildLines_eq,
    show (lchars "---" : Str) = dashes from rfl,
    show (dashes :: (innerBuildLines fm sk ++ [dashes]) : List Str)
      = [dashes] ++ (innerBuildLines fm sk ++ [dashes]) from rfl,
    joinSep_append ['\n'] (by simp) (by simp),
    joinSep_append ['\n'] (innerBuildLines_ne_nil fm sk) (by simp)]
  simp [joinSep, List.append_assoc]

/-- The joined inner header text decomposes around the `metadata:` line,
which is flanked by newlines. -/
theorem innerJoin_decomp (fm : YDict) (sk : Str) :
    ∃ u tail : Str,
      '\n' :: (joinSep ['\n'] (innerBuildLines fm sk) ++ ['\n']) =
        u ++ '\n' :: (lchars "metadata:" ++ tail) ∧
      tail.head? = some '\n' := by
  obtain ⟨p0, ps, hpost⟩ : ∃ p0 ps, postMetaLines fm sk = p0 :: ps := by
    rw [postMetaLines]
    exact ⟨_, _, rfl⟩
  rw [innerBuildLines, joinSep_append ['\n'] (preMetaLines_ne_nil fm) (by simp),
    hpost, joinSep_cons_cons]
  refine ⟨'\n' :: joinSep ['\n'] (preMetaLines fm),
    '\n' :: (joinSep ['\n'] (p0 :: ps) ++ ['\n']), ?_, rfl⟩
  simp [List.append_assoc]

theorem joinSep_inner_DF {fm : YDict} (sk : Str) (hdf : dictDF fm) :
    DF (joinSep ['\n'] (innerBuildLines fm sk)) :=
  joinSep_DF (by simp) (by decide) (by decide) (by decide)
    (innerBuildLines_DF hdf)

theorem mid_DF {fm : YDict} (sk : Str) (hdf : dictDF fm) :
    DF ('\n' :: (joinSep ['\n'] (innerBuildLines fm sk) ++ ['\n'])) := by
  have h1 : DF (['\n'] ++ joinSep ['\n'] (innerBuildLines fm sk)) :=
    DF_append (by decide) (joinSep_inner_DF sk hdf) (Or.inl (by decide))
  have h2 : DF ((['\n'] ++ joinSep ['\n'] (innerBuildLines fm sk)) ++ ['\n']) :=
    DF_append h1 (by decide) (Or.inr (by decide))
  simpa [List.append_assoc] using h2

theorem mid_getLast {fm : YDict} (sk : Str) :
    ('\n' :: (joinSep ['\n'] (innerBuildLines fm sk) ++ ['\n'])).getLast? ≠
      some '-' := by
  rw [show ('\n' :: (joinSep ['\n'] (innerBuildLines fm sk) ++ ['\n']) : Str)
      = ('\n' :: joinSep ['\n'] (innerBuildLines fm sk)) ++ '\n' :: [] from by simp,
    getLast?_append_cons]
  decide

theorem splitOnce_self_pre {sep : Str} (l : Str) (hsep : sep ≠ []) :
    splitOnce sep (sep ++ l) = some ([], l) := by
  rw [splitOnce_of_pre (fun h => hsep (List.append_eq_nil.mp h).1)
    (isPrefixOfEq.mpr ⟨l, rfl⟩), List.drop_left]

/-- `split3` of the rebuilt content recovers the inner header and body. -/
theorem newContent_split {fm : YDict} (sk body : Str) (hdf : dictDF fm) :
    split3 dashes (build_new_frontmatter fm sk ++ body) =
      some ([], '\n' :: (joinSep ['\n'] (innerBuildLines fm sk) ++ ['\n']),
        body) := by
  have e1 : splitOnce dashes (build_new_frontmatter fm sk ++ body) =
      some ([], ('\n' :: (joinSep ['\n'] (innerBuildLines fm sk) ++ ['\n'])) ++
        (dashes ++ body)) := by
    rw [bnf_eq, List.append_assoc, List.append_assoc]
    exact splitOnce_self_pre _ (by decide)
  have e2 : splitOnce dashes
      ((('\n' :: (joinSep ['\n'] (innerBuildLines fm sk) ++ ['\n']))) ++
        (dashes ++ body)) =
      some ('\n' :: (joinSep ['\n'] (innerBuildLines fm sk) ++ ['\n']), body) := by
    rw [splitOnce_prepend _ (mid_DF sk hdf) (mid_getLast sk),
      splitOnce_self_pre body (by decide)]
    simp
  simp only [split3, e1, e2]

/-- Re-parsing the rebuilt content succeeds with the inner header text. -/
theorem newContent_parse {fm : YDict} (u : Bool) (sk body : Str)
    (hdf : dictDF fm) :
    parseFrontmatter u (build_new_frontmatter fm sk ++ body) =
      (some (if u = true then
          ymParse ('\n' :: (joinSep ['\n'] (innerBuildLines fm sk) ++ ['\n']))
        else
          fbParse ('\n' :: (joinSep ['\n'] (innerBuildLines fm sk) ++ ['\n']))),
       body) := by
  have hpre : dashes.isPrefixOf (build_new_frontmatter fm sk ++ body) = true := by
    refine isPrefixOfEq.mpr ?_
    rw [bnf_eq, List.append_assoc, List.append_assoc]
    exact ⟨_, rfl⟩
  rw [parseFrontmatter, if_neg (not_not_intro hpre),
    newContent_split sk body hdf]

/-- Either parser, re-run on the rebuilt inner header, records the
`metadata` key. -/
theorem parse_mid_hasMeta (u : Bool) (fm : YDict) (sk : Str) :
    ydHasKey (if u = true then
        ymParse ('\n' :: (joinSep ['\n'] (innerBuildLines fm sk) ++ ['\n']))
      else
        fbParse ('\n' :: (joinSep ['\n'] (innerBuildLines fm sk) ++ ['\n'])))
      (lchars "metadata") = true := by
  obtain ⟨w, tail, hdec, ht⟩ := innerJoin_decomp fm sk
  by_cases hu : u = true
  · rw [if_pos hu]
    refine ymParse_metaLine ?_
    rw [hdec]
    exact mem_splitChar_flanked (by decide) (Or.inr ht) w
  · rw [if_neg hu]
    refine fbParse_metaLine ?_
    rw [hdec]
    exact mem_lines_strip (by decide) (by decide)
      (show (lchars "metadata:").head? = some 'm' by decide) (by decide)
      (show (lchars "metadata:").getLast? = some ':' by decide) (by decide)
      (Or.inr ht) w

/-- Pass A applied to a just-migrated document skips it. -/
theorem migrateSkill_second {u : Bool} {sk body : Str} {fm : YDict}
    (hdf : dictDF fm) :
    migrateSkill u sk (build_new_frontmatter fm sk ++ body) =
      .skippedAlready := by
  simp only [migrateSkill, newContent_parse u sk body hdf]
  rw [if_pos (parse_mid_hasMeta u fm sk)]

theorem split3_inv {sep l a b c : Str} (h : split3 sep l = some (a, b, c)) :
    ∃ r, splitOnce sep l = some (a, r) ∧ splitOnce sep r = some (b, c) := by
  rw [split3] at h
  cases h1 : splitOnce sep l with
  | none => rw [h1] at h; simp at h
  | some p =>
    obtain ⟨a', r⟩ := p
    rw [h1] at h
    cases h2 : splitOnce sep r with
    | none => simp only [h2] at h; exact absurd h (by simp)
    | some q =>
      obtain ⟨b', c'⟩ := q
      simp only [h2] at h
      obtain ⟨rfl, rfl, rfl⟩ : a' = a ∧ b' = b ∧ c' = c := by simpa using h
      exact ⟨r, rfl, h2⟩

/-- A successfully parsed header mapping has dash-free values: the header
text lies strictly between the first two `---` occurrences. -/
theorem parseFrontmatter_some_DF {u : Bool} {content : Str} {fm : YDict}
    {body : Str} (h : parseFrontmatter u content = (some fm, body)) :
    dictDF fm := by
  rw [parseFrontmatter] at h
  by_cases h1 : dashes.isPrefixOf content = true
  · rw [if_neg (not_not_intro h1)] at h
    cases h3 : split3 dashes content with
    | none => rw [h3] at h; simp at h
    | some t =>
      obtain ⟨p0, fmStr, body'⟩ := t
      simp only [h3] at h
      obtain ⟨r, _, h5⟩ := split3_inv h3
      have hdfS : DF fmStr := splitOnce_not_infix_left (by decide) h5
      have hfm : (if u = true then ymParse fmStr else fbParse fmStr) = fm := by
        have := congrArg Prod.fst h
        simpa using this
      rw [← hfm]
      by_cases hu : u = true
      · rw [if_pos hu]; exact ymParse_DF hdfS
      · rw [if_neg hu]; exact fbParse_DF hdfS
  · rw [if_pos h1] at h
    simp at h

/-- Inversion of a `migrated` outcome of Pass A. -/
theorem migrateSkill_migrated {u : Bool} {sk content nc : Str}
    (h : migrateSkill u sk content = .migrated nc) :
    ∃ fm body, parseFrontmatter u content = (some fm, body) ∧
      dictDF fm ∧ nc = build_new_frontmatter fm sk ++ body := by
  rw [migrateSkill] at h
  cases hp : parseFrontmatter u content with
  | mk ofm body =>
    cases ofm with
    | none => simp only [hp] at h; exact absurd h (by simp)
    | some fm =>
      simp only [hp] at h
      by_cases hk : ydHasKey fm (lchars "metadata") = true
      · rw [if_pos hk] at h
        simp at h
      · rw [if_neg hk] at h
        cases hf : firstMissingField fm with
        | some f => simp only [hf] at h; exact absurd h (by simp)
        | none =>
          simp only [hf] at h
          obtain rfl : build_new_frontmatter fm sk ++ body = nc := by
            simpa using h
          exact ⟨fm, body, rfl, parseFrontmatter_some_DF hp, rfl⟩

/-- A document produced by a migrated Pass A run is skipped when Pass A
runs again. -/
theorem migrated_second {u : Bool} {sk content nc : Str}
    (h : migrateSkill u sk content = .migrated nc) :
    migrateSkill u sk nc = .skippedAlready := by
  obtain ⟨fm, body, hp, hdf, rfl⟩ := migrateSkill_migrated h
  exact migrateSkill_second hdf

theorem applyPassA_idem (u : Bool) (sk content : Str) :
    applyPassA u sk (applyPassA u sk content) = applyPassA u sk content := by
  cases hm : migrateSkill u sk content with
  | migrated nc =>
    have h1 : applyPassA u sk content = nc := by rw [applyPassA, hm]
    rw [h1, applyPassA, migrated_second hm]
  | skippedAlready =>
    have h1 : applyPassA u sk content = content := by rw [applyPassA, hm]
    rw [h1, h1]
  | noFrontmatter =>
    have h1 : applyPassA u sk content = content := by rw [applyPassA, hm]
    rw [h1, h1]
  | missingField f =>
    have h1 : applyPassA u sk content = content := by rw [applyPassA, hm]
    rw [h1, h1]

/-- Witness for C10: both branches at concrete documents. -/
theorem claim_C10_witness :
    add_related_skills_to_frontmatter
        (lchars "---\nmetadata:\n  related-skills: x\n---\nB") (lchars "r") =
      lchars "---\nmetadata:\n  related-skills: x\n---\nB" ∧
    ∃ nl, add_related_skills_to_frontmatter
        (lchars "---\nmetadata:\n  output-format: o\n---\nB") [] =
      dashes ++ joinSep ['\n'] nl ++ dashes ++ lchars "\nB" ∧
      lchars "  related-skills: " ∈ nl :=
  ⟨(claim_C10 (lchars "---\nmetadata:\n  related-skills: x\n---\nB")
      (lchars "r") [] (lchars "\nmetadata:\n  related-skills: x\n")
      (lchars "\nB") (by decide)).1
      ⟨lchars "  related-skills: x", by decide, by decide⟩,
   (claim_C10 (lchars "---\nmetadata:\n  output-format: o\n---\nB")
      [] [] (lchars "\nmetadata:\n  output-format: o\n")
      (lchars "\nB") (by decide)).2 (by decide)
      ⟨lchars "  output-format: o", by decide, by decide⟩⟩

/-! ## Pass B idempotence machinery -/

/-- The part before the first `---` occurrence cannot end in `-`, or the
occurrence would not be the first. -/
theorem splitOnce_dashes_getLast {r a b : Str}
    (h : splitOnce dashes r = some (a, b)) : a.getLast? ≠ some '-' := by
  induction r generalizing a b with
  | nil => simp [splitOnce] at h
  | cons c cs ih =>
    rw [splitOnce] at h
    by_cases hp : dashes.isPrefixOf (c :: cs) = true
    · rw [if_pos hp] at h
      obtain ⟨rfl, rfl⟩ : ([] : Str) = a ∧ (c :: cs).drop dashes.length = b := by
        simpa using h
      simp
    · rw [if_neg hp] at h
      cases hs : splitOnce dashes cs with
      | none => rw [hs] at h; simp at h
      | some p =>
        obtain ⟨a', b'⟩ := p
        rw [hs] at h
        obtain ⟨rfl, rfl⟩ : c :: a' = a ∧ b' = b := by simpa using h
        cases a' with
        | nil =>
          intro hcon
          obtain rfl : c = '-' := by simpa using hcon
          have hcs : cs = dashes ++ b' := by
            have := splitOnce_eq_append hs
            simpa using this
          refine hp ?_
          rw [hcs]
          exact isPrefixOfEq.mpr ⟨'-' :: b', by rw [dashes_eq]; rfl⟩
        | cons d ds =>
          rw [List.getLast?_cons_cons]
          exact ih hs

theorem insAfterOutput_decomp {rs : Str} {ls ls' : List Str}
    (h : insAfterOutput rs ls = some ls') :
    ∃ pre x suf, ls = pre ++ x :: suf ∧ ls' = pre ++ x :: rsLine rs :: suf := by
  induction ls generalizing ls' with
  | nil => simp [insAfterOutput] at h
  | cons l t ih =>
    rw [insAfterOutput] at h
    by_cases hl : isOFLine l = true
    · rw [if_pos hl] at h
      obtain rfl : l :: rsLine rs :: t = ls' := by simpa using h
      exact ⟨[], l, t, rfl, rfl⟩
    · rw [if_neg hl] at h
      cases ht : insAfterOutput rs t with
      | none => rw [ht] at h; simp at h
      | some t' =>
        rw [ht] at h
        obtain rfl : l :: t' = ls' := by simpa using h
        obtain ⟨pre, x, suf, h1, h2⟩ := ih ht
        exact ⟨l :: pre, x, suf, by simp [h1], by simp [h2]⟩

theorem insAfterLastMeta_decomp {rs : Str} {ls ls' : List Str}
    (h : insAfterLastMeta rs ls = some ls') :
    ∃ pre x suf, ls = pre ++ x :: suf ∧ ls' = pre ++ x :: rsLine rs :: suf := by
  induction ls generalizing ls' with
  | nil => simp [insAfterLastMeta] at h
  | cons l t ih =>
    rw [insAfterLastMeta] at h
    cases ht : insAfterLastMeta rs t with
    | some t' =>
      rw [ht] at h
      obtain rfl : l :: t' = ls' := by simpa using h
      obtain ⟨pre, x, suf, h1, h2⟩ := ih ht
      exact ⟨l :: pre, x, suf, by simp [h1], by simp [h2]⟩
    | none =>
      rw [ht] at h
      by_cases hl : isMetaFieldLine l = true
      · rw [if_pos hl] at h
        obtain rfl : l :: rsLine rs :: t = ls' := by simpa using h
        exact ⟨[], l, t, rfl, rfl⟩
      · rw [if_neg hl] at h
        simp at h

theorem insAfterOutput_none_inv {rs : Str} {ls : List Str}
    (h : insAfterOutput rs ls = none) : ∀ l ∈ ls, isOFLine l = false := by
  induction ls with
  | nil => intro l hl; simp at hl
  | cons x t ih =>
    rw [insAfterOutput] at h
    by_cases hx : isOFLine x = true
    · rw [if_pos hx] at h; simp at h
    · rw [if_neg hx] at h
      intro l hl
      rcases List.mem_cons.mp hl with rfl | hl
      · simpa using hx
      · cases ht : insAfterOutput rs t with
        | some t' => rw [ht] at h; simp at h
        | none => exact ih ht l hl

theorem insAfterLastMeta_none_inv {rs : Str} {ls : List Str}
    (h : insAfterLastMeta rs ls = none) :
    ∀ l ∈ ls, isMetaFieldLine l = false := by
  induction ls with
  | nil => intro l hl; simp at hl
  | cons x t ih =>
    rw [insAfterLastMeta] at h
    cases ht : insAfterLastMeta rs t with
    | some t' => rw [ht] at h; simp at h
    | none =>
      rw [ht] at h
      by_cases hx : isMetaFieldLine x = true
      · rw [if_pos hx] at h; simp at h
      · intro l hl
        rcases List.mem_cons.mp hl with rfl | hl
        · simpa using hx
        · exact ih ht l hl

/-! Equation lemmas for the four branches of the splice. -/

theorem addRel_split_none {content rs : Str}
    (h : split3 dashes content = none) :
    add_related_skills_to_frontmatter content rs = content := by
  rw [add_related_skills_to_frontmatter, h]

theorem addRel_of_marker {content rs p0 fmStr body : Str}
    (h : split3 dashes content = some (p0, fmStr, body))
    (hm : containsSub (lchars "  related-skills:") fmStr = true) :
    add_related_skills_to_frontmatter content rs = content := by
  simp only [add_related_skills_to_frontmatter, h]
  rw [if_pos (by simp [hm])]

theorem addRel_io {content rs p0 fmStr body : Str} {ls : List Str}
    (h : split3 dashes content = some (p0, fmStr, body))
    (hm : containsSub (lchars "  related-skills:") fmStr = false)
    (hio : insAfterOutput rs (splitChar '\n' fmStr) = some ls) :
    add_related_skills_to_frontmatter content rs =
      dashes ++ joinSep ['\n'] ls ++ dashes ++ body := by
  simp only [add_related_skills_to_frontmatter, h, hio]
  rw [if_neg (by simp [hm])]

theorem addRel_im {content rs p0 fmStr body : Str} {ls : List Str}
    (h : split3 dashes content = some (p0, fmStr, body))
    (hm : containsSub (lchars "  related-skills:") fmStr = false)
    (hio : insAfterOutput rs (splitChar '\n' fmStr) = none)
    (him : insAfterLastMeta rs (splitChar '\n' fmStr) = some ls) :
    add_related_skills_to_frontmatter content rs =
      dashes ++ joinSep ['\n'] ls ++ dashes ++ body := by
  simp only [add_related_skills_to_frontmatter, h, hio, him]
  rw [if_neg (by simp [hm])]

theorem addRel_nn {content rs p0 fmStr body : Str}
    (h : split3 dashes content = some (p0, fmStr, body))
    (hm : containsSub (lchars "  related-skills:") fmStr = false)
    (hio : insAfterOutput rs (splitChar '\n' fmStr) = none)
    (him : insAfterLastMeta rs (splitChar '\n' fmStr) = none) :
    add_related_skills_to_frontmatter content rs =
      dashes ++ fmStr ++ dashes ++ body := by
  simp only [add_related_skills_to_frontmatter, h, hio, him]
  rw [if_neg (by simp [hm]), joinSep_splitChar]

/-- After splicing the related-skills line into a dash-free header, a
second split finds the marker substring inside its header part. -/
theorem spliced_split {fmStr : Str} (body rs : Str) {pre suf : List Str}
    {x : Str} (hDF : DF fmStr)
    (hlines : splitChar '\n' fmStr = pre ++ x :: suf) :
    ∃ fm2 bd2,
      split3 dashes
        (dashes ++ joinSep ['\n'] (pre ++ x :: rsLine rs :: suf) ++
          dashes ++ body) = some ([], fm2, bd2) ∧
      containsSub (lchars "  related-skills:") fm2 = true := by
  have hLDF : ∀ l ∈ pre ++ x :: suf, DF l := by
    intro l hl
    rw [← hlines] at hl
    exact DF_mono (infix_of_mem_splitChar hl) hDF
  have hADF : DF (joinSep ['\n'] (pre ++ [x])) := by
    refine joinSep_DF (by simp) (by decide) (by decide) (by decide) ?_
    intro l hl
    rcases List.mem_append.mp hl with h | h
    · exact hLDF l (List.mem_append.mpr (Or.inl h))
    · obtain rfl : l = x := by simpa using h
      exact hLDF l (by simp)
  obtain ⟨T, hjoin⟩ : ∃ T, joinSep ['\n'] (pre ++ x :: rsLine rs :: suf) =
      joinSep ['\n'] (pre ++ [x]) ++
        '\n' :: (lchars "  related-skills: " ++ (rs ++ T)) := by
    cases suf with
    | nil =>
      refine ⟨[], ?_⟩
      rw [show (pre ++ x :: rsLine rs :: ([] : List Str))
          = (pre ++ [x]) ++ [rsLine rs] from by simp,
        joinSep_append ['\n'] (by simp) (by simp),
        show joinSep ['\n'] [rsLine rs] = rsLine rs from rfl, rsLine]
      simp [List.append_assoc]
    | cons s ss =>
      refine ⟨'\n' :: joinSep ['\n'] (s :: ss), ?_⟩
      rw [show (pre ++ x :: rsLine rs :: s :: ss)
          = (pre ++ [x]) ++ (rsLine rs :: s :: ss) from by simp,
        joinSep_append ['\n'] (by simp) (by simp), joinSep_cons_cons, rsLine]
      simp [List.append_assoc]
  have hQDF : DF (joinSep ['\n'] (pre ++ [x]) ++
      '\n' :: lchars "  related-skills: ") := by
    have h1 : DF (joinSep ['\n'] (pre ++ [x]) ++ ['\n']) :=
      DF_append hADF (by decide) (Or.inr (by decide))
    have h2 : DF ((joinSep ['\n'] (pre ++ [x]) ++ ['\n']) ++
        lchars "  related-skills: ") :=
      DF_append h1 (by decide) (Or.inr (by decide))
    simpa [List.append_assoc] using h2
  have hQlast : (joinSep ['\n'] (pre ++ [x]) ++
      '\n' :: lchars "  related-skills: ").getLast? ≠ some '-' := by
    rw [getLast?_append_cons]
    decide
  obtain ⟨w1, w2, hs⟩ : ∃ w1 w2,
      splitOnce dashes (rs ++ (T ++ (dashes ++ body))) = some (w1, w2) := by
    cases hsw : splitOnce dashes (rs ++ (T ++ (dashes ++ body))) with
    | none =>
      exact absurd ⟨rs ++ T, body, by simp [List.append_assoc]⟩
        ((splitOnce_none_iff (by decide)).mp hsw)
    | some p => exact ⟨p.1, p.2, by simp⟩
  have hQW : joinSep ['\n'] (pre ++ x :: rsLine rs :: suf) ++ (dashes ++ body) =
      (joinSep ['\n'] (pre ++ [x]) ++ '\n' :: lchars "  related-skills: ") ++
        (rs ++ (T ++ (dashes ++ body))) := by
    rw [hjoin]
    simp [List.append_assoc]
  have e2 : splitOnce dashes
      ((joinSep ['\n'] (pre ++ [x]) ++ '\n' :: lchars "  related-skills: ") ++
        (rs ++ (T ++ (dashes ++ body)))) =
      some ((joinSep ['\n'] (pre ++ [x]) ++
        '\n' :: lchars "  related-skills: ") ++ w1, w2) := by
    rw [splitOnce_prepend _ hQDF hQlast, hs]
    rfl
  refine ⟨(joinSep ['\n'] (pre ++ [x]) ++
      '\n' :: lchars "  related-skills: ") ++ w1, w2, ?_, ?_⟩
  · have e1 : splitOnce dashes
        (dashes ++ joinSep ['\n'] (pre ++ x :: rsLine rs :: suf) ++
          dashes ++ body) =
        some ([], joinSep ['\n'] (pre ++ x :: rsLine rs :: suf) ++
          (dashes ++ body)) := by
      rw [List.append_assoc, List.append_assoc]
      exact splitOnce_self_pre _ (by decide)
    simp only [split3, e1]
    rw [hQW]
    simp only [e2]
  · have hmm' : lchars "  related-skills: " =
        lchars "  related-skills:" ++ [' '] := by decide
    refine (containsSub_iff (by decide)).mpr
      ⟨joinSep ['\n'] (pre ++ [x]) ++ ['\n'], [' '] ++ w1, ?_⟩
    rw [hmm']
    simp [List.append_assoc]

/-- The splice is idempotent: splicing into already-spliced content (with
any second related-skills value) returns it unchanged. -/
theorem addRel_idem (content rs rs2 : Str) :
    add_related_skills_to_frontmatter
      (add_related_skills_to_frontmatter content rs) rs2 =
    add_related_skills_to_frontmatter content rs := by
  cases h3 : split3 dashes content with
  | none => rw [addRel_split_none h3, addRel_split_none h3]
  | some t =>
    obtain ⟨p0, fmStr, body⟩ := t
    obtain ⟨r, h1, h2⟩ := split3_inv h3
    have hDF : DF fmStr := splitOnce_not_infix_left (by decide) h2
    have hlast : fmStr.getLast? ≠ some '-' := splitOnce_dashes_getLast h2
    by_cases hm : containsSub (lchars "  related-skills:") fmStr = true
    · rw [addRel_of_marker h3 hm, addRel_of_marker h3 hm]
    · have hm' : containsSub (lchars "  related-skills:") fmStr = false := by
        simpa using hm
      cases hio : insAfterOutput rs (splitChar '\n' fmStr) with
      | some ls =>
        obtain ⟨pre, x, suf, hl1, hl2⟩ := insAfterOutput_decomp hio
        rw [addRel_io h3 hm' hio, hl2]
        obtain ⟨fm2, bd2, hs2, hc2⟩ := spliced_split body rs hDF hl1
        rw [addRel_of_marker hs2 hc2]
      | none =>
        cases him : insAfterLastMeta rs (splitChar '\n' fmStr) with
        | some ls =>
          obtain ⟨pre, x, suf, hl1, hl2⟩ := insAfterLastMeta_decomp him
          rw [addRel_im h3 hm' hio him, hl2]
          obtain ⟨fm2, bd2, hs2, hc2⟩ := spliced_split body rs hDF hl1
          rw [addRel_of_marker hs2 hc2]
        | none =>
          rw [addRel_nn h3 hm' hio him]
          have hsp2 : split3 dashes (dashes ++ fmStr ++ dashes ++ body) =
              some ([], fmStr, body) := by
            have e1 : splitOnce dashes (dashes ++ fmStr ++ dashes ++ body) =
                some ([], fmStr ++ (dashes ++ body)) := by
              rw [List.append_assoc, List.append_assoc]
              exact splitOnce_self_pre _ (by decide)
            have e2 : splitOnce dashes (fmStr ++ (dashes ++ body)) =
                some (fmStr, body) := by
              rw [splitOnce_prepend _ hDF hlast,
                splitOnce_self_pre body (by decide)]
              simp
            simp only [split3, e1, e2]
          rw [addRel_nn hsp2 hm'
            (insAfterOutput_none (insAfterOutput_none_inv hio))
            (insAfterLastMeta_none (insAfterLastMeta_none_inv him))]

/-- Inversion of an `added` outcome of Pass B. -/
theorem migrateRelated_added {u : Bool} {vd : List Str} {content nc : Str}
    (h : migrateRelated u vd content = .added nc) :
    ∃ rs, nc = add_related_skills_to_frontmatter content rs := by
  rw [migrateRelated] at h
  cases hp : parseFrontmatter u content with
  | mk ofm body =>
    cases ofm with
    | none => simp only [hp] at h; exact absurd h (by simp)
    | some fm =>
      simp only [hp] at h
      by_cases hk : (match (ydFind fm (lchars "metadata")).getD (.m []) with
          | YVal.m entries => entriesHasKey entries (lchars "related-skills")
          | _ => false) = true
      · rw [if_pos hk] at h
        exact absurd h (by simp)
      · rw [if_neg hk] at h
        obtain rfl : add_related_skills_to_frontmatter content
            (extract_related_skills body vd) = nc := by simpa using h
        exact ⟨extract_related_skills body vd, rfl⟩

/-! ## Claim C1: Pass A is idempotent -/

/-- C1: under either parsing strategy, running Pass A a second time over
any document collection changes nothing; on a single document the second
application of Pass A is the identity; a first-run `migrated` outcome
makes the second run's outcome `skippedAlready`; and any document whose
parsed header contains the `metadata` key is reported skipped and its
content is not rewritten. -/
theorem claim_C1 (u : Bool) (docs : List (Str × Str)) (sk content : Str) :
    passA u (passA u docs) = passA u docs ∧
    applyPassA u sk (applyPassA u sk content) = applyPassA u sk content ∧
    (∀ nc, migrateSkill u sk content = .migrated nc →
      migrateSkill u sk nc = .skippedAlready) ∧
    (∀ fm body, parseFrontmatter u content = (some fm, body) →
      ydHasKey fm (lchars "metadata") = true →
      migrateSkill u sk content = .skippedAlready ∧
      applyPassA u sk content = content) := by
  refine ⟨?_, applyPassA_idem u sk content, fun nc h => migrated_second h, ?_⟩
  · rw [passA, passA, List.map_map]
    refine List.map_congr_left ?_
    intro d _
    show (d.1, applyPassA u d.1 (applyPassA u d.1 d.2)) =
      (d.1, applyPassA u d.1 d.2)
    rw [applyPassA_idem]
  · intro fm body hp hk
    have hm : migrateSkill u sk content = .skippedAlready := by
      simp only [migrateSkill, hp]
      rw [if_pos hk]
    exact ⟨hm, by rw [applyPassA, hm]⟩

/-- Witness for C1 at a concrete already-migrated document. -/
theorem claim_C1_witness :
    migrateSkill false (lchars "x")
        (lchars "---\nname: a\nmetadata: z\n---\nbody") = .skippedAlready ∧
    applyPassA false (lchars "x")
        (lchars "---\nname: a\nmetadata: z\n---\nbody") =
      lchars "---\nname: a\nmetadata: z\n---\nbody" :=
  (claim_C1 false [] (lchars "x")
    (lchars "---\nname: a\nmetadata: z\n---\nbody")).2.2.2
    (fbParse (lchars "\nname: a\nmetadata: z\n")) (lchars "\nbody")
    (by decide) (by decide)

/-! ## Claim C9: Pass B is idempotent -/

/-- C9: under either parsing strategy, a second run of Pass B on a
document leaves its contents unchanged, and whenever the parsed metadata
group already contains the `related-skills` key the outcome is
`skippedAlready` and the content is not rewritten. -/
theorem claim_C9 (u : Bool) (vd : List Str) (content : Str) :
    applyPassB u vd (applyPassB u vd content) = applyPassB u vd content ∧
    (∀ fm body entries, parseFrontmatter u content = (some fm, body) →
      ydFind fm (lchars "metadata") = some (.m entries) →
      entriesHasKey entries (lchars "related-skills") = true →
      migrateRelated u vd content = .skippedAlready ∧
      applyPassB u vd content = content) := by
  constructor
  · cases hmr : migrateRelated u vd content with
    | added nc =>
      have h1 : applyPassB u vd content = nc := by rw [applyPassB, hmr]
      rw [h1]
      obtain ⟨rs, rfl⟩ := migrateRelated_added hmr
      cases hmr2 : migrateRelated u vd
          (add_related_skills_to_frontmatter content rs) with
      | added nc2 =>
        have h2 : applyPassB u vd
            (add_related_skills_to_frontmatter content rs) = nc2 := by
          rw [applyPassB, hmr2]
        rw [h2]
        obtain ⟨rs2, rfl⟩ := migrateRelated_added hmr2
        exact addRel_idem content rs rs2
      | skippedAlready => rw [applyPassB, hmr2]
      | noFrontmatter => rw [applyPassB, hmr2]
    | skippedAlready =>
      have h1 : applyPassB u vd content = content := by rw [applyPassB, hmr]
      rw [h1, h1]
    | noFrontmatter =>
      have h1 : applyPassB u vd content = content := by rw [applyPassB, hmr]
      rw [h1, h1]
  · intro fm body entries hp hfind hhas
    have hmr : migrateRelated u vd content = .skippedAlready := by
      simp only [migrateRelated, hp, hfind, Option.getD_some]
      rw [if_pos (by simp [hhas])]
    exact ⟨hmr, by rw [applyPassB, hmr]⟩

/-- Witness for C9 at a concrete already-spliced document (structured
parsing mode). -/
theorem claim_C9_witness :
    migrateRelated true []
        (lchars "---\nmetadata:\n  related-skills: x\n---\nB") =
      .skippedAlready ∧
    applyPassB true []
        (lchars "---\nmetadata:\n  related-skills: x\n---\nB") =
      lchars "---\nmetadata:\n  related-skills: x\n---\nB" :=
  (claim_C9 true []
    (lchars "---\nmetadata:\n  related-skills: x\n---\nB")).2
    (ymParse (lchars "\nmetadata:\n  related-skills: x\n")) (lchars "\nB")
    [(lchars "related-skills", lchars "x")]
    (by decide) (by decide) (by decide)

/-! ## Claim C2: the header subset grammar

Modelled from the spec: the claim's subset of header texts "composed
only of zero-indentation scalar `key: value` lines and single-level list
fields (a bare `key:` line followed by indented `- item` lines)".  Keys,
scalar values and items are plain runs of alphanumeric, `-` or `_`
characters (the shapes this document format emits and consumes); an item
must not itself begin with `-`; a list has at least one item line.  The
indentation of the item lines is a parameter: the claim's wording allows
any positive indentation (`broadInd`); the amended version requires
exactly two or four spaces (`exactInd`). -/

def plainChar (c : Char) : Bool := c.isAlphanum || c = '-' || c = '_'

def plainStr (s : Str) : Bool := !s.isEmpty && s.all plainChar

def wfItemStr (s : Str) : Bool := plainStr s && s.head? != some '-'

inductive WfEntry where
  | scalar (k v : Str)
  | list (k : Str) (items : List (Nat × Str))
  deriving DecidableEq

def renderItem (ind : Nat) (it : Str) : Str :=
  List.replicate ind ' ' ++ '-' :: ' ' :: it

def renderEntry : WfEntry → List Str
  | .scalar k v => [k ++ ':' :: ' ' :: v]
  | .list k items => (k ++ [':']) :: items.map (fun p => renderItem p.1 p.2)

def linesOf (es : List WfEntry) : List Str := (es.map renderEntry).flatten

def renderHeader (es : List WfEntry) : Str := joinSep ['\n'] (linesOf es)

def wfEntry (P : Nat → Bool) : WfEntry → Bool
  | .scalar k v => plainStr k && plainStr v
  | .list k items =>
    plainStr k && !items.isEmpty &&
      items.all (fun p => P p.1 && wfItemStr p.2)

def wfHeader (P : Nat → Bool) (es : List WfEntry) : Bool :=
  es.all (wfEntry P)

def broadInd (n : Nat) : Bool := decide (1 ≤ n)

def exactInd (n : Nat) : Bool := n == 2 || n == 4

def entryPair : WfEntry → Str × YVal
  | .scalar k v => (k, .s v)
  | .list k items => (k, .l (items.map Prod.snd))

/-- The reference mapping: the entries inserted left to right. -/
def modelDict (es : List WfEntry) : YDict :=
  es.foldl (fun d e => ydInsert d (entryPair e).1 (entryPair e).2) []

/-! Character and line-shape helpers for the grammar. -/

theorem plain_not_ws {c : Char} (h : plainChar c = true) : isWs c = false := by
  by_contra hc
  have hws : isWs c = true := by simpa using hc
  have h6 : c = ' ' ∨ c = '\t' ∨ c = '\n' ∨ c = '\r' ∨ c = '\x0b' ∨
      c = '\x0c' := by
    simpa [isWs, or_assoc] using hws
  rcases h6 with rfl | rfl | rfl | rfl | rfl | rfl <;>
    exact absurd h (by decide)

theorem plainStr_ne_nil {s : Str} (h : plainStr s = true) : s ≠ [] := by
  intro hc
  subst hc
  simp [plainStr] at h

theorem plainStr_all {s : Str} (h : plainStr s = true) :
    ∀ c ∈ s, plainChar c = true := by
  rw [plainStr, Bool.and_eq_true] at h
  exact List.all_eq_true.mp h.2

theorem head_mem_of_head? {α : Type} {l : List α} {c : α}
    (h : l.head? = some c) : c ∈ l := by
  cases l with
  | nil => simp at h
  | cons a t =>
    obtain rfl : a = c := by simpa using h
    simp

theorem pyStrip_id {s : Str} {a b : Char} (hh : s.head? = some a)
    (hwa : isWs a = false) (hl : s.getLast? = some b)
    (hwb : isWs b = false) : pyStrip s = s := by
  rw [pyStrip, pyRstrip_of_last hl hwb, pyLstrip_of_head hh hwa]

theorem plainStr_strip {s : Str} (h : plainStr s = true) : pyStrip s = s := by
  obtain ⟨a, ha⟩ : ∃ a, s.head? = some a := by
    cases s with
    | nil => exact absurd rfl (plainStr_ne_nil h)
    | cons x xs => exact ⟨x, rfl⟩
  obtain ⟨b, hb⟩ : ∃ b, s.getLast? = some b := by
    cases hgl : s.getLast? with
    | none => exact absurd (List.getLast?_eq_none_iff.mp hgl) (plainStr_ne_nil h)
    | some x => exact ⟨x, rfl⟩
  exact pyStrip_id ha
    (plain_not_ws (plainStr_all h a (head_mem_of_head? ha)))
    hb (plain_not_ws (plainStr_all h b (List.mem_of_mem_getLast? hb)))

theorem isPrefixOf_false_of_head {p l : Str} {a b : Char}
    (hp : p.head? = some a) (hl : l.head? = some b) (hne : ¬ a = b) :
    p.isPrefixOf l = false := by
  cases p with
  | nil => simp at hp
  | cons x xs =>
    cases l with
    | nil => simp at hl
    | cons y ys =>
      have hx : x = a := by simpa using hp
      have hy : y = b := by simpa using hl
      show (x == y && xs.isPrefixOf ys) = false
      simp [hx, hy, hne]

theorem splitOnce_single {c : Char} {k rest : Str} (h : c ∉ k) :
    splitOnce [c] (k ++ c :: rest) = some (k, rest) := by
  induction k with
  | nil =>
    rw [List.nil_append, splitOnce,
      if_pos (show ([c] : Str).isPrefixOf (c :: rest) = true from
        isPrefixOfEq.mpr ⟨rest, rfl⟩)]
    rfl
  | cons d ks ih =>
    have hf : ([c] : Str).isPrefixOf (d :: (ks ++ c :: rest)) = false :=
      isPrefixOf_false_of_head rfl rfl (fun hcd => h (by simp [hcd]))
    rw [List.cons_append, splitOnce, if_neg (by simp [hf]),
      ih (fun hc2 => h (by simp [hc2]))]

theorem colon_not_plain {k : Str} (h : plainStr k = true) : ':' ∉ k := by
  intro hc
  exact absurd (plainStr_all h ':' hc) (by decide)

theorem last_of_append (A : Str) {v : Str} {b : Char}
    (hv : v.getLast? = some b) : (A ++ v).getLast? = some b := by
  rw [List.getLast?_append, hv]
  rfl

theorem plainStr_head_ex {s : Str} (h : plainStr s = true) :
    ∃ a, s.head? = some a ∧ plainChar a = true := by
  cases s with
  | nil => exact absurd rfl (plainStr_ne_nil h)
  | cons x xs => exact ⟨x, rfl, plainStr_all h x (by simp)⟩

theorem plainStr_last_ex {s : Str} (h : plainStr s = true) :
    ∃ b, s.getLast? = some b ∧ plainChar b = true := by
  cases hgl : s.getLast? with
  | none => exact absurd (List.getLast?_eq_none_iff.mp hgl) (plainStr_ne_nil h)
  | some x => exact ⟨x, rfl, plainStr_all h x (List.mem_of_mem_getLast? hgl)⟩

/-! Stripping and branch conditions on the three rendered line shapes. -/

theorem scalar_line_strip {k v : Str} (hk : plainStr k = true)
    (hv : plainStr v = true) :
    pyStrip (k ++ ':' :: ' ' :: v) = k ++ ':' :: ' ' :: v := by
  obtain ⟨a, ha, hpa⟩ := plainStr_head_ex hk
  obtain ⟨b, hb, hpb⟩ := plainStr_last_ex hv
  refine pyStrip_id ?_ (plain_not_ws hpa) ?_ (plain_not_ws hpb)
  · rw [List.head?_append_of_ne_nil _ (plainStr_ne_nil hk)]
    exact ha
  · rw [show (k ++ ':' :: ' ' :: v : Str) = (k ++ [':', ' ']) ++ v from by simp]
    exact last_of_append _ hb

theorem bare_line_strip {k : Str} (hk : plainStr k = true) :
    pyStrip (k ++ [':']) = k ++ [':'] := by
  obtain ⟨a, ha, hpa⟩ := plainStr_head_ex hk
  refine pyStrip_id ?_ (plain_not_ws hpa) (last_of_append _ rfl) (by decide)
  rw [List.head?_append_of_ne_nil _ (plainStr_ne_nil hk)]
  exact ha

theorem pyLstrip_replicate (n : Nat) : pyLstrip (List.replicate n ' ') = [] := by
  rw [pyLstrip]
  refine List.dropWhile_eq_nil_iff.mpr ?_
  intro x hx
  obtain rfl := List.eq_of_mem_replicate hx
  decide

theorem item_line_strip {ind : Nat} {it : Str} (hit : plainStr it = true) :
    pyStrip (renderItem ind it) = '-' :: ' ' :: it := by
  obtain ⟨b, hb, hpb⟩ := plainStr_last_ex hit
  have hr : pyRstrip (renderItem ind it) = renderItem ind it := by
    refine pyRstrip_of_last ?_ (plain_not_ws hpb)
    rw [renderItem, show (List.replicate ind ' ' ++ '-' :: ' ' :: it : Str)
      = (List.replicate ind ' ' ++ ['-', ' ']) ++ it from by simp]
    exact last_of_append _ hb
  rw [pyStrip, hr, renderItem, pyLstrip_append,
    if_pos (pyLstrip_replicate ind), pyLstrip, List.dropWhile_cons,
    if_neg (by decide)]

theorem line_ne_blank {s : Str} (h : pyStrip s = s) (hne : s ≠ []) :
    ((pyStrip s).isEmpty = true) = False := by
  rw [h]
  simp [List.isEmpty_iff, hne]

theorem head?_ne_nil {l : Str} {a : Char} (h : l.head? = some a) : l ≠ [] := by
  intro hc
  subst hc
  simp at h

theorem no_item_cond {l : Str} {a : Char} (hl : l.head? = some a)
    (hpa : plainChar a = true) :
    ¬ (((lchars "  - ").isPrefixOf l || (lchars "    - ").isPrefixOf l) = true) := by
  have hne : ¬ (' ' = a) := fun he => by
    rw [← he] at hpa
    exact absurd hpa (by decide)
  rw [isPrefixOf_false_of_head
      (show (lchars "  - ").head? = some ' ' from rfl) hl hne,
    isPrefixOf_false_of_head
      (show (lchars "    - ").head? = some ' ' from rfl) hl hne]
  simp

theorem no_space_cond {l : Str} {a : Char} (hl : l.head? = some a)
    (hpa : plainChar a = true) : (lchars " ").isPrefixOf l = false := by
  refine isPrefixOf_false_of_head
    (show (lchars " ").head? = some ' ' from rfl) hl (fun he => ?_)
  rw [← he] at hpa
  exact absurd hpa (by decide)

theorem space_strip_val {v : Str} (hv : plainStr v = true) :
    pyStrip (' ' :: v) = v := by
  obtain ⟨a, ha, hpa⟩ := plainStr_head_ex hv
  obtain ⟨b, hb, hpb⟩ := plainStr_last_ex hv
  have hr : pyRstrip (' ' :: v) = ' ' :: v :=
    pyRstrip_of_last (show ((' ' :: v : Str)).getLast? = some b from
      last_of_append [' '] hb) (plain_not_ws hpb)
  rw [pyStrip, hr, pyLstrip, List.dropWhile_cons, if_pos (by decide)]
  show pyLstrip v = v
  exact pyLstrip_of_head ha (plain_not_ws hpa)

/-! The fallback parser's step on each line shape. -/

theorem fbStep_scalar (st : FBState) {k v : Str} (hk : plainStr k = true)
    (hv : plainStr v = true) :
    fbStep st (k ++ ':' :: ' ' :: v) =
      ⟨ydInsert (fbFlush st) k (.s v), none⟩ := by
  obtain ⟨a, ha, hpa⟩ := plainStr_head_ex hk
  have hlh : (k ++ ':' :: ' ' :: v).head? = some a := by
    rw [List.head?_append_of_ne_nil _ (plainStr_ne_nil hk)]
    exact ha
  rw [fbStep,
    if_neg (by rw [scalar_line_strip hk hv]
               simp [List.isEmpty_iff, head?_ne_nil hlh]),
    if_neg (no_item_cond hlh hpa),
    if_pos ⟨by simp, by simp [no_space_cond hlh hpa]⟩]
  simp only [show splitOnce [':'] (k ++ ':' :: ' ' :: v) = some (k, ' ' :: v)
    from splitOnce_single (colon_not_plain hk)]
  rw [if_neg (show ¬ pyStrip (' ' :: v) = [] from by
    rw [space_strip_val hv]; exact plainStr_ne_nil hv)]
  rw [plainStr_strip hk, space_strip_val hv]

theorem fbStep_bare (st : FBState) {k : Str} (hk : plainStr k = true) :
    fbStep st (k ++ [':']) = ⟨fbFlush st, some (k, [])⟩ := by
  obtain ⟨a, ha, hpa⟩ := plainStr_head_ex hk
  have hlh : (k ++ [':'] : Str).head? = some a := by
    rw [List.head?_append_of_ne_nil _ (plainStr_ne_nil hk)]
    exact ha
  rw [fbStep,
    if_neg (by rw [bare_line_strip hk]
               simp [List.isEmpty_iff, head?_ne_nil hlh]),
    if_neg (no_item_cond hlh hpa),
    if_pos ⟨by simp, by simp [no_space_cond hlh hpa]⟩]
  simp only [show splitOnce [':'] (k ++ [':']) = some (k, [])
    from splitOnce_single (colon_not_plain hk)]
  rw [if_pos (show pyStrip ([] : Str) = [] from rfl), plainStr_strip hk]

theorem item_prefix_cond {ind : Nat} {it : Str} (hind : ind = 2 ∨ ind = 4) :
    ((lchars "  - ").isPrefixOf (renderItem ind it) ||
      (lchars "    - ").isPrefixOf (renderItem ind it)) = true := by
  rcases hind with rfl | rfl
  · have : (lchars "  - ").isPrefixOf (renderItem 2 it) = true :=
      isPrefixOfEq.mpr ⟨it, rfl⟩
    simp [this]
  · have : (lchars "    - ").isPrefixOf (renderItem 4 it) = true :=
      isPrefixOfEq.mpr ⟨it, rfl⟩
    simp [this]

theorem item_extract {it : Str} (hit : wfItemStr it = true) :
    pyStrip (pyLstripDashSpace ('-' :: ' ' :: it)) = it := by
  obtain ⟨hp, hd⟩ : plainStr it = true ∧ (it.head? != some '-') = true := by
    simpa [wfItemStr] using hit
  obtain ⟨a, ha, hpa⟩ := plainStr_head_ex hp
  have hld : pyLstripDashSpace ('-' :: ' ' :: it) = it := by
    rw [pyLstripDashSpace, List.dropWhile_cons, if_pos (by decide),
      List.dropWhile_cons, if_pos (by decide)]
    cases it with
    | nil => rfl
    | cons x xs =>
      have hpx : plainChar x = true := plainStr_all hp x (by simp)
      have hxd : ¬ x = '-' := by
        intro hc
        subst hc
        simp at hd
      have hxs : ¬ x = ' ' := fun he => by
        rw [he] at hpx
        exact absurd hpx (by decide)
      rw [List.dropWhile_cons, if_neg (by simp [hxd, hxs])]
  rw [hld]
  exact plainStr_strip hp

theorem fbStep_item {fm0 : YDict} {k : Str} {acc : List Str}
    {ind : Nat} {it : Str} (hk : plainStr k = true)
    (hind : ind = 2 ∨ ind = 4) (hit : wfItemStr it = true) :
    fbStep ⟨fm0, some (k, acc)⟩ (renderItem ind it) =
      ⟨fm0, some (k, acc ++ [it])⟩ := by
  have hp : plainStr it = true := by
    rw [wfItemStr, Bool.and_eq_true] at hit
    exact hit.1
  rw [fbStep,
    if_neg (by rw [item_line_strip hp]; simp [List.isEmpty_iff]),
    if_pos (item_prefix_cond hind)]
  show (if k ≠ [] then
      ({ fm := fm0,
         pend := some (k,
          acc ++ [pyStrip (pyLstripDashSpace (pyStrip (renderItem ind it)))]) } :
        FBState)
    else ⟨fm0, some (k, acc)⟩) = ⟨fm0, some (k, acc ++ [it])⟩
  rw [if_pos (plainStr_ne_nil hk), item_line_strip hp, item_extract hit]

/-! The fallback parser over a rendered header. -/

theorem fb_items_fold {fm0 : YDict} {k : Str} (hk : plainStr k = true)
    {items : List (Nat × Str)}
    (hwf : ∀ p ∈ items, (p.1 = 2 ∨ p.1 = 4) ∧ wfItemStr p.2 = true)
    (acc : List Str) :
    List.foldl fbStep ⟨fm0, some (k, acc)⟩
        (items.map (fun p => renderItem p.1 p.2)) =
      ⟨fm0, some (k, acc ++ items.map Prod.snd)⟩ := by
  induction items generalizing acc with
  | nil => simp
  | cons p ps ih =>
    rw [List.map_cons, List.foldl_cons,
      fbStep_item hk (hwf p (by simp)).1 (hwf p (by simp)).2,
      ih (fun q hq => hwf q (by simp [hq]))]
    simp

theorem wfEntry_scalar_inv {P : Nat → Bool} {k v : Str}
    (h : wfEntry P (.scalar k v) = true) :
    plainStr k = true ∧ plainStr v = true := by
  simpa [wfEntry] using h

theorem wfEntry_list_inv {P : Nat → Bool} {k : Str} {items : List (Nat × Str)}
    (h : wfEntry P (.list k items) = true) :
    plainStr k = true ∧ items ≠ [] ∧
      ∀ p ∈ items, P p.1 = true ∧ wfItemStr p.2 = true := by
  have h' : (plainStr k = true ∧ ¬ items.isEmpty = true) ∧
      ∀ p ∈ items, P p.1 = true ∧ wfItemStr p.2 = true := by
    simpa [wfEntry, Bool.and_eq_true, List.all_eq_true, and_assoc,
      Bool.and_eq_true] using h
  exact ⟨h'.1.1, by simpa [List.isEmpty_iff] using h'.1.2, h'.2⟩

theorem exactInd_cases {n : Nat} (h : exactInd n = true) : n = 2 ∨ n = 4 := by
  simpa [exactInd] using h

theorem wfHeader_cons_inv {P : Nat → Bool} {e : WfEntry} {es : List WfEntry}
    (h : wfHeader P (e :: es) = true) :
    wfEntry P e = true ∧ wfHeader P es = true := by
  simpa [wfHeader] using h

theorem fb_entries {es : List WfEntry} (hwf : wfHeader exactInd es = true)
    (st : FBState) :
    fbFlush (List.foldl fbStep st (linesOf es)) =
      es.foldl (fun d e => ydInsert d (entryPair e).1 (entryPair e).2)
        (fbFlush st) := by
  induction es generalizing st with
  | nil => simp [linesOf]
  | cons e es' ih =>
    obtain ⟨he, hes⟩ := wfHeader_cons_inv hwf
    have hlines : linesOf (e :: es') = renderEntry e ++ linesOf es' := by
      simp [linesOf]
    rw [hlines, List.foldl_append, List.foldl_cons]
    cases e with
    | scalar k v =>
      obtain ⟨hk, hv⟩ := wfEntry_scalar_inv he
      rw [show renderEntry (.scalar k v) = [k ++ ':' :: ' ' :: v] from rfl,
        List.foldl_cons, List.foldl_nil, fbStep_scalar st hk hv, ih hes]
      rfl
    | list k items =>
      obtain ⟨hk, hne, hall⟩ := wfEntry_list_inv he
      rw [show renderEntry (.list k items) =
          (k ++ [':']) :: items.map (fun p => renderItem p.1 p.2) from rfl,
        List.foldl_cons, fbStep_bare st hk,
        fb_items_fold hk
          (fun p hp => ⟨exactInd_cases (hall p hp).1, (hall p hp).2⟩) [],
        ih hes]
      have hfl : fbFlush ⟨fbFlush st, some (k, [] ++ items.map Prod.snd)⟩ =
          ydInsert (fbFlush st) k (.l (items.map Prod.snd)) := by
        show (if k ≠ [] then
            ydInsert (fbFlush st) k (.l ([] ++ items.map Prod.snd))
          else fbFlush st) = _
        rw [if_pos (plainStr_ne_nil hk)]
        simp
      rw [hfl]
      rfl

/-! The rendered header splits back into its lines. -/

theorem noNl_of_plain {s : Str} (h : plainStr s = true) : '\n' ∉ s :=
  fun hc => absurd (plainStr_all h _ hc) (by decide)

theorem noNl_replicate (n : Nat) : '\n' ∉ List.replicate n ' ' := by
  intro hc
  have := List.eq_of_mem_replicate hc
  simp at this

theorem linesOf_noNl {P : Nat → Bool} {es : List WfEntry}
    (hwf : wfHeader P es = true) : ∀ l ∈ linesOf es, '\n' ∉ l := by
  induction es with
  | nil => intro l hl; simp [linesOf] at hl
  | cons e es' ih =>
    obtain ⟨he, hes⟩ := wfHeader_cons_inv hwf
    intro l hl
    rw [show linesOf (e :: es') = renderEntry e ++ linesOf es' from by
      simp [linesOf]] at hl
    rcases List.mem_append.mp hl with hl | hl
    · cases e with
      | scalar k v =>
        obtain ⟨hk, hv⟩ := wfEntry_scalar_inv he
        obtain rfl : l = k ++ ':' :: ' ' :: v := by
          simpa [renderEntry] using hl
        intro hc
        rcases List.mem_append.mp hc with hc | hc
        · exact noNl_of_plain hk hc
        · rcases List.mem_cons.mp hc with hc | hc
          · exact absurd hc (by decide)
          · rcases List.mem_cons.mp hc with hc | hc
            · exact absurd hc (by decide)
            · exact noNl_of_plain hv hc
      | list k items =>
        obtain ⟨hk, hne, hall⟩ := wfEntry_list_inv he
        rw [renderEntry] at hl
        rcases List.mem_cons.mp hl with rfl | hl
        · intro hc
          rcases List.mem_append.mp hc with hc | hc
          · exact noNl_of_plain hk hc
          · exact absurd hc (by decide)
        · obtain ⟨p, hp, rfl⟩ := List.mem_map.mp hl
          obtain ⟨hpi, hit⟩ := hall p hp
          have hps : plainStr p.2 = true := by
            rw [wfItemStr, Bool.and_eq_true] at hit
            exact hit.1
          intro hc
          rw [renderItem] at hc
          rcases List.mem_append.mp hc with hc | hc
          · exact noNl_replicate _ hc
          · rcases List.mem_cons.mp hc with hc | hc
            · exact absurd hc (by decide)
            · rcases List.mem_cons.mp hc with hc | hc
              · exact absurd hc (by decide)
              · exact noNl_of_plain hps hc
    · exact ih hes l hl

theorem splitChar_joinSep {L : List Str} (h : ∀ l ∈ L, '\n' ∉ l)
    (hne : L ≠ []) : splitChar '\n' (joinSep ['\n'] L) = L := by
  induction L with
  | nil => exact absurd rfl hne
  | cons l t ih =>
    cases t with
    | nil => exact splitChar_noNl (h l (by simp))
    | cons r rs =>
      rw [joinSep_cons_cons,
        show (l ++ ['\n'] ++ joinSep ['\n'] (r :: rs) : Str)
          = l ++ '\n' :: joinSep ['\n'] (r :: rs) from by simp,
        splitChar_after (h l (by simp)),
        ih (fun x hx => h x (by simp [hx])) (by simp)]

theorem renderEntry_ne_nil (e : WfEntry) : renderEntry e ≠ [] := by
  cases e <;> simp [renderEntry]

theorem linesOf_cons_eq (e : WfEntry) (es : List WfEntry) :
    linesOf (e :: es) = renderEntry e ++ linesOf es := by
  simp [linesOf]

theorem linesOf_cons_ne (e : WfEntry) (es : List WfEntry) :
    linesOf (e :: es) ≠ [] := by
  rw [linesOf_cons_eq]
  intro hc
  exact renderEntry_ne_nil e (List.append_eq_nil.mp hc).1

theorem renderEntry_head {P : Nat → Bool} {e : WfEntry}
    (he : wfEntry P e = true) :
    ∃ l rest a, renderEntry e = l :: rest ∧ l.head? = some a ∧
      plainChar a = true ∧ pyStrip l = l := by
  cases e with
  | scalar k v =>
    obtain ⟨hk, hv⟩ := wfEntry_scalar_inv he
    obtain ⟨a, ha, hpa⟩ := plainStr_head_ex hk
    exact ⟨k ++ ':' :: ' ' :: v, [], a, rfl,
      by rw [List.head?_append_of_ne_nil _ (plainStr_ne_nil hk)]; exact ha,
      hpa, scalar_line_strip hk hv⟩
  | list k items =>
    obtain ⟨hk, _, _⟩ := wfEntry_list_inv he
    obtain ⟨a, ha, hpa⟩ := plainStr_head_ex hk
    exact ⟨k ++ [':'], _, a, rfl,
      by rw [List.head?_append_of_ne_nil _ (plainStr_ne_nil hk)]; exact ha,
      hpa, bare_line_strip hk⟩

theorem renderItem_last {ind : Nat} {it : Str} {b : Char}
    (hb : it.getLast? = some b) :
    (renderItem ind it).getLast? = some b := by
  rw [renderItem, show (List.replicate ind ' ' ++ '-' :: ' ' :: it : Str)
    = (List.replicate ind ' ' ++ ['-', ' ']) ++ it from by simp]
  exact last_of_append _ hb

theorem renderEntry_last {P : Nat → Bool} {e : WfEntry}
    (he : wfEntry P e = true) :
    ∃ m b, (renderEntry e).getLast? = some m ∧ m.getLast? = some b ∧
      plainChar b = true := by
  cases e with
  | scalar k v =>
    obtain ⟨hk, hv⟩ := wfEntry_scalar_inv he
    obtain ⟨b, hb, hpb⟩ := plainStr_last_ex hv
    refine ⟨k ++ ':' :: ' ' :: v, b, by simp [renderEntry], ?_, hpb⟩
    rw [show (k ++ ':' :: ' ' :: v : Str) = (k ++ [':', ' ']) ++ v from by simp]
    exact last_of_append _ hb
  | list k items =>
    obtain ⟨hk, hne, hall⟩ := wfEntry_list_inv he
    obtain ⟨p, hp⟩ : ∃ p, items.getLast? = some p := by
      cases hgl : items.getLast? with
      | none => exact absurd (List.getLast?_eq_none_iff.mp hgl) hne
      | some q => exact ⟨q, rfl⟩
    have hpmem : p ∈ items := List.mem_of_mem_getLast? hp
    obtain ⟨_, hit⟩ := hall p hpmem
    have hps : plainStr p.2 = true := by
      rw [wfItemStr, Bool.and_eq_true] at hit
      exact hit.1
    obtain ⟨b, hb, hpb⟩ := plainStr_last_ex hps
    refine ⟨renderItem p.1 p.2, b, ?_, renderItem_last hb, hpb⟩
    obtain ⟨q, qs, rfl⟩ : ∃ q qs, items = q :: qs := by
      cases items with
      | nil => exact absurd rfl hne
      | cons q qs => exact ⟨q, qs, rfl⟩
    have hmap : ((q :: qs).map (fun r => renderItem r.1 r.2)).getLast? =
        some (renderItem p.1 p.2) := by
      rw [List.getLast?_map, hp]
      rfl
    show ([k ++ [':']] ++ (q :: qs).map (fun r => renderItem r.1 r.2)).getLast? =
      some (renderItem p.1 p.2)
    rw [List.getLast?_append, hmap]
    rfl

theorem linesOf_last {P : Nat → Bool} {es : List WfEntry}
    (hwf : wfHeader P es = true) (hne : es ≠ []) :
    ∃ m b, (linesOf es).getLast? = some m ∧ m.getLast? = some b ∧
      plainChar b = true := by
  induction es with
  | nil => exact absurd rfl hne
  | cons e es' ih =>
    obtain ⟨he, hes⟩ := wfHeader_cons_inv hwf
    cases es' with
    | nil =>
      obtain ⟨m, b, hm, hb, hpb⟩ := renderEntry_last he
      refine ⟨m, b, ?_, hb, hpb⟩
      rw [linesOf_cons_eq]
      simpa [linesOf] using hm
    | cons f fs =>
      obtain ⟨m, b, hm, hb, hpb⟩ := ih hes (by simp)
      refine ⟨m, b, ?_, hb, hpb⟩
      rw [linesOf_cons_eq, List.getLast?_append, hm]
      rfl

theorem joinSep_head {l : Str} {rest : List Str} {a : Char}
    (hl : l.head? = some a) :
    (joinSep ['\n'] (l :: rest)).head? = some a := by
  cases rest with
  | nil => exact hl
  | cons r rs =>
    rw [joinSep_cons_cons, List.append_assoc,
      List.head?_append_of_ne_nil _ (head?_ne_nil hl)]
    exact hl

theorem joinSep_getLast {L : List Str} {m : Str} {b : Char}
    (hL : L.getLast? = some m) (hm : m.getLast? = some b) :
    (joinSep ['\n'] L).getLast? = some b := by
  induction L with
  | nil => simp at hL
  | cons l rest ih =>
    cases rest with
    | nil =>
      obtain rfl : l = m := by simpa using hL
      exact hm
    | cons r rs =>
      rw [List.getLast?_cons_cons] at hL
      rw [joinSep_cons_cons, List.append_assoc]
      exact last_of_append _ (last_of_append _ (ih hL))

theorem renderHeader_strip {P : Nat → Bool} {es : List WfEntry}
    (hwf : wfHeader P es = true) (hne : es ≠ []) :
    pyStrip (renderHeader es) = renderHeader es := by
  obtain ⟨e, es', rfl⟩ : ∃ e es', es = e :: es' := by
    cases es with
    | nil => exact absurd rfl hne
    | cons e es' => exact ⟨e, es', rfl⟩
  obtain ⟨he, _⟩ := wfHeader_cons_inv hwf
  obtain ⟨l, rest, a, hre, hla, hpa, -⟩ := renderEntry_head he
  obtain ⟨m, b, hm, hb, hpb⟩ := linesOf_last hwf (by simp)
  have hlines : linesOf (e :: es') = l :: (rest ++ linesOf es') := by
    rw [linesOf_cons_eq, hre]
    rfl
  refine pyStrip_id ?_ (plain_not_ws hpa) ?_ (plain_not_ws hpb)
  · rw [renderHeader, hlines]
    exact joinSep_head hla
  · rw [renderHeader]
    exact joinSep_getLast hm hb

/-! The structured parser over a rendered header. -/

theorem takeWhile_all_append {p : Str → Bool} {a b : List Str}
    (ha : ∀ x ∈ a, p x = true)
    (hb : b = [] ∨ ∃ y ys, b = y :: ys ∧ p y = false) :
    (a ++ b).takeWhile p = a ∧ (a ++ b).dropWhile p = b := by
  induction a with
  | nil =>
    rcases hb with rfl | ⟨y, ys, rfl, hy⟩
    · simp
    · rw [List.nil_append, List.takeWhile_cons, if_neg (by simp [hy]),
        List.dropWhile_cons, if_neg (by simp [hy])]
      exact ⟨rfl, rfl⟩
  | cons x xs ih =>
    obtain ⟨ht, hd⟩ := ih (fun z hz => ha z (by simp [hz]))
    rw [List.cons_append, List.takeWhile_cons, if_pos (ha x (by simp)),
      List.dropWhile_cons, if_pos (ha x (by simp)), ht, hd]
    exact ⟨rfl, rfl⟩

theorem renderItem_indented {ind : Nat} (it : Str) (hind : 1 ≤ ind) :
    isIndentedOrBlank (renderItem ind it) = true := by
  rw [isIndentedOrBlank]
  have hpre : (lchars " ").isPrefixOf (renderItem ind it) = true := by
    refine isPrefixOfEq.mpr ?_
    obtain ⟨n, rfl⟩ : ∃ n, ind = n + 1 := ⟨ind - 1, by omega⟩
    exact ⟨List.replicate n ' ' ++ '-' :: ' ' :: it, rfl⟩
  simp [hpre]

theorem linesOf_boundary {P : Nat → Bool} {es : List WfEntry}
    (hwf : wfHeader P es = true) :
    linesOf es = [] ∨
      ∃ y ys, linesOf es = y :: ys ∧ isIndentedOrBlank y = false := by
  cases es with
  | nil => left; rfl
  | cons e es' =>
    right
    obtain ⟨he, _⟩ := wfHeader_cons_inv hwf
    obtain ⟨l, rest, a, hre, hla, hpa, hstr⟩ := renderEntry_head he
    refine ⟨l, rest ++ linesOf es', by rw [linesOf_cons_eq, hre]; rfl, ?_⟩
    rw [isIndentedOrBlank, no_space_cond hla hpa]
    simp [hstr, List.isEmpty_iff, head?_ne_nil hla]

theorem wfItemStr_plain {s : Str} (h : wfItemStr s = true) :
    plainStr s = true := by
  rw [wfItemStr, Bool.and_eq_true] at h
  exact h.1

theorem ymItems_map {items : List (Nat × Str)}
    (hall : ∀ p ∈ items, wfItemStr p.2 = true) :
    ymItems (items.map (fun p => renderItem p.1 p.2)) =
      items.map Prod.snd := by
  rw [ymItems, List.filterMap_map,
    show items.map Prod.snd = items.filterMap (some ∘ Prod.snd) from
      (congrFun (List.filterMap_eq_map Prod.snd) items).symm]
  refine List.filterMap_congr ?_
  intro p hp
  have hps : plainStr p.2 = true := wfItemStr_plain (hall p hp)
  simp only [Function.comp]
  rw [item_line_strip hps,
    if_pos (show (lchars "- ").isPrefixOf ('-' :: ' ' :: p.2) = true from
      isPrefixOfEq.mpr ⟨p.2, rfl⟩),
    show (('-' :: ' ' :: p.2 : Str)).drop 2 = p.2 from rfl,
    plainStr_strip hps]

theorem ymBlockVal_items {items : List (Nat × Str)} (hne : items ≠ [])
    (hall : ∀ p ∈ items, wfItemStr p.2 = true) :
    ymBlockVal (items.map (fun p => renderItem p.1 p.2)) =
      .l (items.map Prod.snd) := by
  obtain ⟨q, qs, rfl⟩ : ∃ q qs, items = q :: qs := by
    cases items with
    | nil => exact absurd rfl hne
    | cons q qs => exact ⟨q, qs, rfl⟩
  have hq : plainStr q.2 = true := wfItemStr_plain (hall q (by simp))
  rw [ymBlockVal]
  rw [show ((q :: qs).map fun p => renderItem p.1 p.2)
      = renderItem q.1 q.2 :: qs.map (fun p => renderItem p.1 p.2) from rfl]
  have hfind : List.find? (fun l => !(pyStrip l).isEmpty)
      (renderItem q.1 q.2 :: qs.map (fun p => renderItem p.1 p.2)) =
      some (renderItem q.1 q.2) :=
    List.find?_cons_of_pos _ (by rw [item_line_strip hq]; rfl)
  rw [hfind]
  show (if (lchars "- ").isPrefixOf (pyStrip (renderItem q.1 q.2)) = true then
      YVal.l (ymItems (renderItem q.1 q.2 :: qs.map (fun p => renderItem p.1 p.2)))
    else YVal.m (ymEntries (renderItem q.1 q.2 :: qs.map (fun p => renderItem p.1 p.2)))) = _
  rw [if_pos (by
    rw [item_line_strip hq]
    exact isPrefixOfEq.mpr ⟨q.2, rfl⟩)]
  rw [show (renderItem q.1 q.2 :: qs.map (fun p => renderItem p.1 p.2))
      = (q :: qs).map (fun p => renderItem p.1 p.2) from rfl,
    ymItems_map hall]

theorem ym_scalar_step (n : Nat) (rest : List Str) (fm : YDict) {k v : Str}
    (hk : plainStr k = true) (hv : plainStr v = true) :
    ymAuxF (n + 1) ((k ++ ':' :: ' ' :: v) :: rest) fm =
      ymAuxF n rest (ydInsert fm k (.s v)) := by
  obtain ⟨a, ha, hpa⟩ := plainStr_head_ex hk
  have hlh : (k ++ ':' :: ' ' :: v).head? = some a := by
    rw [List.head?_append_of_ne_nil _ (plainStr_ne_nil hk)]
    exact ha
  rw [ymAuxF,
    if_neg (by rw [scalar_line_strip hk hv]
               simp [List.isEmpty_iff, head?_ne_nil hlh]),
    if_neg (by simp [no_space_cond hlh hpa])]
  simp only [show splitOnce [':'] (k ++ ':' :: ' ' :: v) = some (k, ' ' :: v)
    from splitOnce_single (colon_not_plain hk)]
  rw [if_neg (show ¬ ((pyStrip (' ' :: v)).isEmpty = true) from by
    rw [space_strip_val hv]
    simp [List.isEmpty_iff, plainStr_ne_nil hv])]
  rw [plainStr_strip hk, space_strip_val hv]

theorem ym_list_step (n : Nat) {rest' : List Str} (fm : YDict) {k : Str}
    {items : List (Nat × Str)} (hk : plainStr k = true) (hne : items ≠ [])
    (hall : ∀ p ∈ items, 1 ≤ p.1 ∧ wfItemStr p.2 = true)
    (hbd : rest' = [] ∨
      ∃ y ys, rest' = y :: ys ∧ isIndentedOrBlank y = false) :
    ymAuxF (n + 1)
        ((k ++ [':']) :: (items.map (fun p => renderItem p.1 p.2) ++ rest'))
        fm =
      ymAuxF n rest' (ydInsert fm k (.l (items.map Prod.snd))) := by
  obtain ⟨a, ha, hpa⟩ := plainStr_head_ex hk
  have hlh : (k ++ [':'] : Str).head? = some a := by
    rw [List.head?_append_of_ne_nil _ (plainStr_ne_nil hk)]
    exact ha
  obtain ⟨ht, hd⟩ := takeWhile_all_append
    (fun x hx => by
      obtain ⟨p, hp, rfl⟩ := List.mem_map.mp hx
      exact renderItem_indented p.2 (hall p hp).1)
    hbd
  rw [ymAuxF,
    if_neg (by rw [bare_line_strip hk]
               simp [List.isEmpty_iff, head?_ne_nil hlh]),
    if_neg (by simp [no_space_cond hlh hpa])]
  simp only [show splitOnce [':'] (k ++ [':']) = some (k, [])
    from splitOnce_single (colon_not_plain hk)]
  rw [if_pos (show (pyStrip ([] : Str)).isEmpty = true from rfl)]
  rw [ht, hd, ymBlockVal_items hne (fun p hp => (hall p hp).2),
    plainStr_strip hk]

theorem ym_entries {es : List WfEntry} (hwf : wfHeader exactInd es = true) :
    ∀ fuel fm, (linesOf es).length < fuel →
      ymAuxF fuel (linesOf es) fm =
        es.foldl (fun d e => ydInsert d (entryPair e).1 (entryPair e).2) fm := by
  induction es with
  | nil =>
    intro fuel fm hfuel
    cases fuel with
    | zero => exact absurd hfuel (Nat.not_lt_zero _)
    | succ n => rfl
  | cons e es' ih =>
    intro fuel fm hfuel
    obtain ⟨he, hes⟩ := wfHeader_cons_inv hwf
    cases fuel with
    | zero => exact absurd hfuel (Nat.not_lt_zero _)
    | succ n =>
      cases e with
      | scalar k v =>
        obtain ⟨hk, hv⟩ := wfEntry_scalar_inv he
        rw [linesOf_cons_eq] at hfuel ⊢
        rw [show renderEntry (.scalar k v) ++ linesOf es'
            = (k ++ ':' :: ' ' :: v) :: linesOf es' from rfl] at hfuel ⊢
        rw [ym_scalar_step n _ fm hk hv, ih hes n _ (by
          rw [List.length_cons] at hfuel
          omega)]
        rw [List.foldl_cons]
        rfl
      | list k items =>
        obtain ⟨hk, hne, hall⟩ := wfEntry_list_inv he
        rw [linesOf_cons_eq] at hfuel ⊢
        rw [show renderEntry (.list k items) ++ linesOf es'
            = (k ++ [':']) ::
              (items.map (fun p => renderItem p.1 p.2) ++ linesOf es')
            from by rw [renderEntry]; rfl] at hfuel ⊢
        rw [ym_list_step n fm hk hne
          (fun p hp => ⟨by rcases exactInd_cases (hall p hp).1 with h2 | h2 <;>
            omega, (hall p hp).2⟩)
          (linesOf_boundary hes)]
        rw [ih hes n _ (by
          rw [List.length_cons, List.length_append] at hfuel
          omega)]
        rw [List.foldl_cons]
        rfl

theorem ymParse_model {es : List WfEntry}
    (hwf : wfHeader exactInd es = true) :
    ymParse (renderHeader es) = modelDict es := by
  cases es with
  | nil => rfl
  | cons e es' =>
    simp only [ymParse]
    rw [renderHeader, splitChar_joinSep (linesOf_noNl hwf)
      (linesOf_cons_ne e es')]
    rw [ym_entries hwf _ [] (Nat.lt_succ_self _)]
    rfl

theorem fbParse_model {es : List WfEntry}
    (hwf : wfHeader exactInd es = true) :
    fbParse (renderHeader es) = modelDict es := by
  cases es with
  | nil => rfl
  | cons e es' =>
    rw [fbParse, renderHeader_strip hwf (by simp), renderHeader,
      splitChar_joinSep (linesOf_noNl hwf) (linesOf_cons_ne e es'),
      fb_entries hwf ⟨[], none⟩]
    rfl

/-- C2 counterexample: a header inside the claim's subset — a bare key
line followed by an indented `- item` line, here with one space of
indentation — on which the two strategies disagree: the fallback parser
accepts item lines only when indented exactly two or four spaces, so it
returns the key with an empty list, while the structured parser returns
the one-item list. -/
theorem claim_C2_counterexample :
    wfHeader broadInd [.list (lchars "k") [(1, lchars "a")]] = true ∧
    renderHeader [.list (lchars "k") [(1, lchars "a")]] =
      lchars "k:\n - a" ∧
    fbParse (lchars "k:\n - a") = [(lchars "k", .l [])] ∧
    ymParse (lchars "k:\n - a") = [(lchars "k", .l [lchars "a"])] ∧
    fbParse (lchars "k:\n - a") ≠ ymParse (lchars "k:\n - a") :=
  ⟨by decide, by decide, by decide, by decide, by decide⟩

/-- C2 (amended): on every header of the claim's subset whose item lines
are indented exactly two or four spaces, the fallback line-oriented
parser and the structured parser return the same mapping. -/
theorem claim_C2_amended (es : List WfEntry)
    (h : wfHeader exactInd es = true) :
    fbParse (renderHeader es) = ymParse (renderHeader es) := by
  rw [fbParse_model h, ymParse_model h]

/-- Witness for the amended C2 at a concrete two-entry header. -/
theorem claim_C2_witness :
    wfHeader exactInd
        [.scalar (lchars "name") (lchars "x"),
         .list (lchars "triggers") [(2, lchars "a"), (4, lchars "b")]] =
      true ∧
    fbParse (renderHeader
        [.scalar (lchars "name") (lchars "x"),
         .list (lchars "triggers") [(2, lchars "a"), (4, lchars "b")]]) =
      ymParse (renderHeader
        [.scalar (lchars "name") (lchars "x"),
         .list (lchars "triggers") [(2, lchars "a"), (4, lchars "b")]]) :=
  ⟨by decide, claim_C2_amended _ (by decide)⟩

end Migrate
